import Mathlib

/-!
Shallow embedding of the BitArray library (bit_array.c) and proofs of the
spec claims.  The C code stores bits packed in a byte buffer, bit 0 being the
most significant bit of byte 0.  Machine integers (`index_t` = `size_t`,
64-bit) are modelled as `Nat`, with an explicit `% 2 ^ 64` at the one place
where the C arithmetic can wrap (the `remaining_bytes` subtraction inside
`internal_BitArray_operate_region`).  Bytes are modelled as `Nat` values,
kept `< 256` by the well-formedness predicate `WF`.
-/

namespace BitArrayC

/-- `BYTES_FROM_BITS(bits)`: the C computes `ceil(bits / 8.0L)` in
`long double`, which is exact for every `size_t` value, hence `(bits+7)/8`. -/
def bytesFromBits (bits : Nat) : Nat := (bits + 7) / 8

/-- `struct BitArray { index_t num_bits; uint8_t* data; }` -/
structure BitArray where
  num_bits : Nat
  data : List Nat
deriving DecidableEq, Repr

/-- Well-formedness: the buffer has exactly `BYTES_FROM_BITS(num_bits)`
bytes, every byte is a `uint8_t` value, and the bit count fits `size_t`. -/
def WF (v : BitArray) : Prop :=
  v.data.length = bytesFromBits v.num_bits ∧ (∀ b ∈ v.data, b < 256) ∧
    v.num_bits < 2 ^ 64

instance (v : BitArray) : Decidable (WF v) := by unfold WF; infer_instance

/-- `BYTE_INDEX(index)` -/
def BYTE_INDEX (i : Nat) : Nat := i / 8

/-- `BIT_OFFSET(index)` -/
def BIT_OFFSET (i : Nat) : Nat := i % 8

/-- `GET_MASK(index) = 1 << (8 - BIT_OFFSET(index) - 1)` -/
def GET_MASK (i : Nat) : Nat := 1 <<< (8 - BIT_OFFSET i - 1)

/-- `BitArray_init`: `calloc` gives a zero-filled buffer.  Allocation is
modelled as succeeding (the repository's own tests assert that
`BitArray_init(0)` returns a non-NULL handle). -/
def BitArray_init (size : Nat) : BitArray :=
  ⟨size, List.replicate (bytesFromBits size) 0⟩

/-- `BitArray_check_bit`: `data[BYTE_INDEX(i)] & GET_MASK(i)` as a boolean. -/
def BitArray_check_bit (v : BitArray) (i : Nat) : Bool :=
  (v.data.getD (BYTE_INDEX i) 0 &&& GET_MASK i) != 0

/-- `BitArray_set_bit`: `data[BYTE_INDEX(i)] |= GET_MASK(i)` -/
def BitArray_set_bit (v : BitArray) (i : Nat) : BitArray :=
  ⟨v.num_bits,
    v.data.set (BYTE_INDEX i) (v.data.getD (BYTE_INDEX i) 0 ||| GET_MASK i)⟩

/-- `BitArray_clear_bit`: `data[BYTE_INDEX(i)] &= ~GET_MASK(i)`; on a
`uint8_t` value this keeps bits 0..7 other than the mask bit, i.e. it is
`&& (0xFF ^ GET_MASK(i))`. -/
def BitArray_clear_bit (v : BitArray) (i : Nat) : BitArray :=
  ⟨v.num_bits,
    v.data.set (BYTE_INDEX i)
      (v.data.getD (BYTE_INDEX i) 0 &&& (255 ^^^ GET_MASK i))⟩

/-- `BitArray_toggle_bit`: `data[BYTE_INDEX(i)] ^= GET_MASK(i)` -/
def BitArray_toggle_bit (v : BitArray) (i : Nat) : BitArray :=
  ⟨v.num_bits,
    v.data.set (BYTE_INDEX i) (v.data.getD (BYTE_INDEX i) 0 ^^^ GET_MASK i)⟩

/-- The three single-bit operations that the C passes as function pointers
into `internal_BitArray_operate_region`. -/
inductive BitOp
  | set
  | clear
  | toggle
deriving DecidableEq, Repr

/-- Dispatch of the function pointer. -/
def applyOp : BitOp → BitArray → Nat → BitArray
  | .set => BitArray_set_bit
  | .clear => BitArray_clear_bit
  | .toggle => BitArray_toggle_bit

/-- What each operation does to the value of its target bit. -/
def opTarget : BitOp → Bool → Bool
  | .set, _ => true
  | .clear, _ => false
  | .toggle, b => !b

/-- The whole-byte fast path of the region algorithm: `memset(0xFF)` for
set, `memset(0x00)` for clear, `^= 0xFF` for toggle. -/
def opByte : BitOp → Nat → Nat
  | .set, _ => 255
  | .clear, _ => 0
  | .toggle, b => b ^^^ 255

/-- One step of the body loop of the region algorithm:
`ptr[i] = 0xFF` / `ptr[i] = 0x00` / `ptr[i] ^= 0xFF`. -/
def fillStep (op : BitOp) (w : BitArray) (bi : Nat) : BitArray :=
  ⟨w.num_bits, w.data.set bi (opByte op (w.data.getD bi 0))⟩

/-- `internal_BitArray_operate_region`.  Note the faithful rendering of the
C's bound normalisation: `start = MIN(start, end); end = MAX(start, end);`
reads the already-updated `start`, so `end` always keeps its original value.
`remaining_bytes = end_byte - start_byte + 1` is `size_t` arithmetic; when
the tail byte ends up just below the head byte it wraps to exactly 0, which
the explicit `% 2 ^ 64` reproduces. -/
def internal_BitArray_operate_region (v : BitArray) (start0 end0 : Nat)
    (op : BitOp) : BitArray :=
  let start1 := min start0 end0
  let end1 := max start1 end0
  let start_byte := BYTE_INDEX start1
  let end_byte := BYTE_INDEX end1
  if start_byte = end_byte then
    (List.range' start1 (end1 + 1 - start1)).foldl (applyOp op) v
  else
    -- head: bit-by-bit from start1's offset to its byte boundary
    let v1 := if BIT_OFFSET start1 ≠ 0 then
        (List.range' start1 (8 - BIT_OFFSET start1)).foldl (applyOp op) v
      else v
    let start_byte1 := if BIT_OFFSET start1 ≠ 0 then start_byte + 1
      else start_byte
    -- tail: bit-by-bit from end1 down to its byte boundary
    let v2 := if BIT_OFFSET end1 ≠ 7 then
        ((List.range' (end1 - BIT_OFFSET end1)
          (BIT_OFFSET end1 + 1)).reverse).foldl (applyOp op) v1
      else v1
    let end_byte1 := if BIT_OFFSET end1 ≠ 7 then end_byte - 1 else end_byte
    -- body: whole bytes
    let remaining := ((end_byte1 + (2 ^ 64 - start_byte1)) % 2 ^ 64 + 1) % 2 ^ 64
    (List.range' start_byte1 remaining).foldl (fillStep op) v2

/-- `BitArray_set_region` -/
def BitArray_set_region (v : BitArray) (s e : Nat) : BitArray :=
  internal_BitArray_operate_region v s e .set

/-- `BitArray_clear_region` -/
def BitArray_clear_region (v : BitArray) (s e : Nat) : BitArray :=
  internal_BitArray_operate_region v s e .clear

/-- `BitArray_toggle_region` -/
def BitArray_toggle_region (v : BitArray) (s e : Nat) : BitArray :=
  internal_BitArray_operate_region v s e .toggle

/-- `BitArray_size` -/
def BitArray_size (v : BitArray) : Nat := v.num_bits

/-- `BitArray_resize`.  `realloc` keeps the first `min(old, new)` bytes and
leaves any newly acquired bytes uninitialised; the parameter `fresh` models
that junk memory, so theorems quantify over it.  Returning `none` models the
C returning `NULL` with the vector untouched (`size == 0` is rejected before
anything is modified).  `realloc` success is assumed. -/
def BitArray_resize (v : BitArray) (size : Nat) (fresh : List Nat) :
    Option BitArray :=
  if size = 0 then none
  else
    let data1 := (v.data ++ fresh).take (bytesFromBits size)
    let old_size := v.num_bits
    let v1 : BitArray := ⟨size, data1⟩
    some (if old_size < size then
            BitArray_clear_region v1 old_size (size - 1)
          else v1)

/-! ### Basic helper lemmas -/

theorem getD_set (l : List Nat) (i j a : Nat) :
    (l.set i a).getD j 0 = if i = j ∧ i < l.length then a else l.getD j 0 := by
  simp only [List.getD_eq_getElem?_getD, List.getElem?_set]
  by_cases hij : i = j
  · subst hij
    by_cases hl : i < l.length
    · simp [hl]
    · simp [hl, List.getElem?_eq_none (Nat.le_of_not_lt hl)]
  · simp [hij]

theorem GET_MASK_eq (i : Nat) : GET_MASK i = 2 ^ (7 - i % 8) := by
  unfold GET_MASK BIT_OFFSET
  have h8 : 8 - i % 8 - 1 = 7 - i % 8 := by omega
  simp [h8, Nat.shiftLeft_eq]

theorem check_eq_testBit (v : BitArray) (i : Nat) :
    BitArray_check_bit v i = (v.data.getD (i / 8) 0).testBit (7 - i % 8) := by
  unfold BitArray_check_bit BYTE_INDEX
  rw [GET_MASK_eq, Nat.and_two_pow]
  cases h : (v.data.getD (i / 8) 0).testBit (7 - i % 8) <;> simp [h]

theorem applyOp_num_bits (op : BitOp) (v : BitArray) (i : Nat) :
    (applyOp op v i).num_bits = v.num_bits := by
  cases op <;> rfl

theorem applyOp_data_length (op : BitOp) (v : BitArray) (i : Nat) :
    (applyOp op v i).data.length = v.data.length := by
  cases op <;> simp [applyOp, BitArray_set_bit, BitArray_clear_bit,
    BitArray_toggle_bit]

theorem foldl_applyOp_num_bits (op : BitOp) (l : List Nat) (v : BitArray) :
    (l.foldl (applyOp op) v).num_bits = v.num_bits := by
  induction l generalizing v with
  | nil => rfl
  | cons a t ih => rw [List.foldl_cons, ih, applyOp_num_bits]

theorem foldl_applyOp_data_length (op : BitOp) (l : List Nat) (v : BitArray) :
    (l.foldl (applyOp op) v).data.length = v.data.length := by
  induction l generalizing v with
  | nil => rfl
  | cons a t ih => rw [List.foldl_cons, ih, applyOp_data_length]

theorem fillStep_num_bits (op : BitOp) (w : BitArray) (bi : Nat) :
    (fillStep op w bi).num_bits = w.num_bits := rfl

theorem fillStep_data_length (op : BitOp) (w : BitArray) (bi : Nat) :
    (fillStep op w bi).data.length = w.data.length := by
  simp [fillStep]

theorem foldl_fillStep_num_bits (op : BitOp) (l : List Nat) (v : BitArray) :
    (l.foldl (fillStep op) v).num_bits = v.num_bits := by
  induction l generalizing v with
  | nil => rfl
  | cons a t ih => rw [List.foldl_cons, ih, fillStep_num_bits]

theorem foldl_fillStep_data_length (op : BitOp) (l : List Nat) (v : BitArray) :
    (l.foldl (fillStep op) v).data.length = v.data.length := by
  induction l generalizing v with
  | nil => rfl
  | cons a t ih => rw [List.foldl_cons, ih, fillStep_data_length]

/-- Reading a bit after overwriting one byte of the buffer. -/
theorem check_data_set (nb : Nat) (v : BitArray) (bi newB j : Nat) :
    BitArray_check_bit ⟨nb, v.data.set bi newB⟩ j =
      if bi = j / 8 ∧ bi < v.data.length then newB.testBit (7 - j % 8)
      else BitArray_check_bit v j := by
  rw [check_eq_testBit, check_eq_testBit]
  show ((v.data.set bi newB).getD (j / 8) 0).testBit (7 - j % 8) = _
  rw [getD_set]
  by_cases h : bi = j / 8 ∧ bi < v.data.length
  · rw [if_pos h, if_pos h]
  · rw [if_neg h, if_neg h]

/-- Effect of one single-bit operation on an arbitrary bit. -/
theorem check_applyOp (op : BitOp) (v : BitArray) (i j : Nat)
    (hi : i / 8 < v.data.length) :
    BitArray_check_bit (applyOp op v i) j =
      if j = i then opTarget op (BitArray_check_bit v j)
      else BitArray_check_bit v j := by
  have h255 : (255 : Nat) = 2 ^ 8 - 1 := by norm_num
  have hbit : 7 - j % 8 < 8 := by omega
  cases op with
  | set =>
    simp only [applyOp, BitArray_set_bit, BYTE_INDEX]
    rw [check_data_set]
    by_cases hb : i / 8 = j / 8
    · rw [if_pos ⟨hb, hi⟩, Nat.testBit_lor, GET_MASK_eq, Nat.testBit_two_pow]
      by_cases hj : j = i
      · subst hj; simp [opTarget]
      · have hne : ¬ (7 - i % 8 = 7 - j % 8) := by
          intro h; exact hj (by omega)
        rw [check_eq_testBit, hb]
        simp [hne, hj, opTarget]
    · rw [if_neg (fun hc => hb hc.1), if_neg (fun h => hb (by rw [h]))]
  | clear =>
    simp only [applyOp, BitArray_clear_bit, BYTE_INDEX]
    rw [check_data_set]
    by_cases hb : i / 8 = j / 8
    · rw [if_pos ⟨hb, hi⟩, Nat.testBit_land, Nat.testBit_xor, GET_MASK_eq,
        Nat.testBit_two_pow, h255, Nat.testBit_two_pow_sub_one]
      by_cases hj : j = i
      · subst hj; simp [opTarget, hbit]
      · have hne : ¬ (7 - i % 8 = 7 - j % 8) := by
          intro h; exact hj (by omega)
        rw [check_eq_testBit, hb]
        simp [hne, hj, opTarget, hbit]
    · rw [if_neg (fun hc => hb hc.1), if_neg (fun h => hb (by rw [h]))]
  | toggle =>
    simp only [applyOp, BitArray_toggle_bit, BYTE_INDEX]
    rw [check_data_set]
    by_cases hb : i / 8 = j / 8
    · rw [if_pos ⟨hb, hi⟩, Nat.testBit_xor, GET_MASK_eq, Nat.testBit_two_pow]
      by_cases hj : j = i
      · subst hj; rw [check_eq_testBit, hb]; simp [opTarget]
      · have hne : ¬ (7 - i % 8 = 7 - j % 8) := by
          intro h; exact hj (by omega)
        rw [check_eq_testBit, hb]
        simp [hne, hj, opTarget]
    · rw [if_neg (fun hc => hb hc.1), if_neg (fun h => hb (by rw [h]))]

/-- Effect of a bit-by-bit pass over a duplicate-free list of indices. -/
theorem check_foldl_applyOp (op : BitOp) (l : List Nat) (v : BitArray)
    (hnd : l.Nodup) (hlt : ∀ i ∈ l, i / 8 < v.data.length) (j : Nat) :
    BitArray_check_bit (l.foldl (applyOp op) v) j =
      if j ∈ l then opTarget op (BitArray_check_bit v j)
      else BitArray_check_bit v j := by
  induction l generalizing v with
  | nil => simp
  | cons a t ih =>
    rw [List.foldl_cons]
    have hnd' := List.nodup_cons.mp hnd
    have hlt' : ∀ i ∈ t, i / 8 < (applyOp op v a).data.length := by
      intro i hi; rw [applyOp_data_length]; exact hlt i (List.mem_cons_of_mem a hi)
    rw [ih (applyOp op v a) hnd'.2 hlt']
    have ha := check_applyOp op v a j (hlt a (List.mem_cons_self a t))
    by_cases hjt : j ∈ t
    · have hja : j ≠ a := fun h => hnd'.1 (h ▸ hjt)
      rw [if_pos hjt, if_pos (List.mem_cons_of_mem a hjt), ha, if_neg hja]
    · by_cases hja : j = a
      · rw [if_neg hjt, ha, if_pos hja, if_pos (by simp [hja])]
      · rw [if_neg hjt, ha, if_neg hja,
          if_neg (by simp [hja, hjt])]

/-- Ascending range form of `check_foldl_applyOp`. -/
theorem check_foldl_range' (op : BitOp) (a m : Nat) (v : BitArray)
    (hlt : ∀ i, a ≤ i → i < a + m → i / 8 < v.data.length) (j : Nat) :
    BitArray_check_bit ((List.range' a m).foldl (applyOp op) v) j =
      if a ≤ j ∧ j < a + m then opTarget op (BitArray_check_bit v j)
      else BitArray_check_bit v j := by
  rw [check_foldl_applyOp op _ v (List.nodup_range' a m)
    (fun i hi => hlt i (List.mem_range'_1.mp hi).1 (List.mem_range'_1.mp hi).2) j]
  by_cases h : a ≤ j ∧ j < a + m
  · rw [if_pos (List.mem_range'_1.mpr h), if_pos h]
  · rw [if_neg (fun hm => h (List.mem_range'_1.mp hm)), if_neg h]

/-- Descending range form (the tail loop walks the byte downwards). -/
theorem check_foldl_range'_reverse (op : BitOp) (a m : Nat) (v : BitArray)
    (hlt : ∀ i, a ≤ i → i < a + m → i / 8 < v.data.length) (j : Nat) :
    BitArray_check_bit (((List.range' a m).reverse).foldl (applyOp op) v) j =
      if a ≤ j ∧ j < a + m then opTarget op (BitArray_check_bit v j)
      else BitArray_check_bit v j := by
  rw [check_foldl_applyOp op _ v ((List.nodup_reverse).mpr (List.nodup_range' a m))
    (fun i hi => by
      have := List.mem_range'_1.mp (List.mem_reverse.mp hi)
      exact hlt i this.1 this.2) j]
  by_cases h : a ≤ j ∧ j < a + m
  · rw [if_pos (List.mem_reverse.mpr (List.mem_range'_1.mpr h)), if_pos h]
  · rw [if_neg (fun hm => h (List.mem_range'_1.mp (List.mem_reverse.mp hm))),
      if_neg h]

/-- Effect of one whole-byte fill on an arbitrary bit. -/
theorem check_fillStep (op : BitOp) (w : BitArray) (bi j : Nat)
    (hbi : bi < w.data.length) :
    BitArray_check_bit (fillStep op w bi) j =
      if j / 8 = bi then opTarget op (BitArray_check_bit w j)
      else BitArray_check_bit w j := by
  have hbit : 7 - j % 8 < 8 := by omega
  have h255 : (255 : Nat) = 2 ^ 8 - 1 := by norm_num
  unfold fillStep
  rw [check_data_set]
  by_cases hb : bi = j / 8
  · rw [if_pos ⟨hb, hbi⟩, if_pos hb.symm]
    cases op with
    | set =>
      show Nat.testBit 255 (7 - j % 8) = _
      rw [h255, Nat.testBit_two_pow_sub_one]
      simp [hbit, opTarget]
    | clear =>
      simp [opByte, opTarget]
    | toggle =>
      show ((w.data.getD bi 0) ^^^ 255).testBit (7 - j % 8) = _
      rw [Nat.testBit_xor, h255, Nat.testBit_two_pow_sub_one,
        check_eq_testBit, hb]
      simp [hbit, opTarget]
  · rw [if_neg (fun hc => hb hc.1), if_neg (fun h => hb h.symm)]

/-- Effect of the whole-byte body pass over a range of byte indices. -/
theorem check_foldl_fill (op : BitOp) (a m : Nat) (w : BitArray)
    (hlt : ∀ b, a ≤ b → b < a + m → b < w.data.length) (j : Nat) :
    BitArray_check_bit ((List.range' a m).foldl (fillStep op) w) j =
      if a ≤ j / 8 ∧ j / 8 < a + m then opTarget op (BitArray_check_bit w j)
      else BitArray_check_bit w j := by
  induction m generalizing a w with
  | zero =>
    simp only [List.range', List.foldl_nil]
    rw [if_neg (by omega)]
  | succ m ih =>
    rw [List.range'_succ, List.foldl_cons]
    have hlt' : ∀ b, a + 1 ≤ b → b < a + 1 + m → b < (fillStep op w a).data.length := by
      intro b h1 h2; rw [fillStep_data_length]; exact hlt b (by omega) (by omega)
    rw [ih (a + 1) (fillStep op w a) hlt']
    have ha := check_fillStep op w a j (hlt a le_rfl (by omega))
    by_cases hin : a + 1 ≤ j / 8 ∧ j / 8 < a + 1 + m
    · have hja : ¬ (j / 8 = a) := by omega
      rw [if_pos hin, ha, if_neg hja, if_pos (by omega)]
    · by_cases hja : j / 8 = a
      · rw [if_neg hin, ha, if_pos hja, if_pos (by omega)]
      · rw [if_neg hin, ha, if_neg hja, if_neg (by omega)]

/-- `size_t` wraparound identity for `remaining_bytes = end_byte - start_byte + 1`:
when the tail byte sits one below the head byte the subtraction wraps and the
`+ 1` brings it back to exactly 0. -/
theorem wrap_sub (a b : Nat) (h1 : b ≤ a + 1) (h2 : a + 2 ≤ 2 ^ 64)
    (h3 : b ≤ 2 ^ 64) :
    ((a + (2 ^ 64 - b)) % 2 ^ 64 + 1) % 2 ^ 64 = a + 1 - b := by
  omega

/-- Pointwise characterisation of `internal_BitArray_operate_region` for
normalised bounds `s ≤ e < num_bits`: the bits of `[s, e]` get the
operation applied once, every other bit (including the slack bits of the
final byte) is untouched. -/
theorem operate_region_char (v : BitArray) (hwf : WF v) (op : BitOp)
    (s e : Nat) (hse : s ≤ e) (he : e < v.num_bits) :
    (internal_BitArray_operate_region v s e op).num_bits = v.num_bits ∧
    ∀ j, BitArray_check_bit (internal_BitArray_operate_region v s e op) j =
      if s ≤ j ∧ j ≤ e then opTarget op (BitArray_check_bit v j)
      else BitArray_check_bit v j := by
  obtain ⟨hlen, -, hn64⟩ := hwf
  have hbytes : ∀ i, i < v.num_bits → i / 8 < v.data.length := by
    intro i hi; rw [hlen]; unfold bytesFromBits; omega
  have hmin : min s e = s := Nat.min_eq_left hse
  have hmax : max s e = e := Nat.max_eq_right hse
  unfold internal_BitArray_operate_region
  simp only [hmin, hmax, BYTE_INDEX, BIT_OFFSET]
  by_cases hsame : s / 8 = e / 8
  · rw [if_pos hsame]
    refine ⟨foldl_applyOp_num_bits _ _ _, fun j => ?_⟩
    rw [check_foldl_range' op s (e + 1 - s) v
      (fun i h1 h2 => hbytes i (by omega)) j]
    by_cases hj : s ≤ j ∧ j ≤ e
    · rw [if_pos (by omega), if_pos hj]
    · rw [if_neg (by omega), if_neg hj]
  · rw [if_neg hsame]
    have hslte : s / 8 < e / 8 := by
      have := Nat.div_le_div_right (c := 8) hse
      omega
    have hedb : e / 8 < v.data.length := hbytes e he
    by_cases hh : s % 8 ≠ 0 <;> by_cases ht : e % 8 ≠ 7
    · -- head and tail both partial
      rw [if_pos hh, if_pos hh, if_pos ht, if_pos ht,
        wrap_sub (e / 8 - 1) (s / 8 + 1) (by omega) (by omega) (by omega)]
      refine ⟨by rw [foldl_fillStep_num_bits, foldl_applyOp_num_bits,
        foldl_applyOp_num_bits], fun j => ?_⟩
      have hlen1 : ((List.range' s (8 - s % 8)).foldl (applyOp op) v).data.length
          = v.data.length := foldl_applyOp_data_length _ _ _
      have hlen2 : ((((List.range' (e - e % 8) (e % 8 + 1)).reverse).foldl
          (applyOp op) ((List.range' s (8 - s % 8)).foldl (applyOp op) v))).data.length
          = v.data.length := by
        rw [foldl_applyOp_data_length, hlen1]
      rw [check_foldl_fill op _ _ _
        (fun b h1 h2 => by rw [hlen2]; omega) j]
      rw [check_foldl_range'_reverse op _ _ _
        (fun i h1 h2 => by rw [hlen1]; exact hbytes i (by omega)) j]
      rw [check_foldl_range' op _ _ _
        (fun i h1 h2 => hbytes i (by omega)) j]
      split_ifs <;> first | rfl | omega
    · -- head partial, tail aligned (e % 8 = 7)
      rw [if_pos hh, if_pos hh, if_neg ht, if_neg ht,
        wrap_sub (e / 8) (s / 8 + 1) (by omega) (by omega) (by omega)]
      refine ⟨by rw [foldl_fillStep_num_bits, foldl_applyOp_num_bits],
        fun j => ?_⟩
      have hlen1 : ((List.range' s (8 - s % 8)).foldl (applyOp op) v).data.length
          = v.data.length := foldl_applyOp_data_length _ _ _
      rw [check_foldl_fill op _ _ _
        (fun b h1 h2 => by rw [hlen1]; omega) j]
      rw [check_foldl_range' op _ _ _
        (fun i h1 h2 => hbytes i (by omega)) j]
      split_ifs <;> first | rfl | omega
    · -- head aligned (s % 8 = 0), tail partial
      rw [if_neg hh, if_neg hh, if_pos ht, if_pos ht,
        wrap_sub (e / 8 - 1) (s / 8) (by omega) (by omega) (by omega)]
      refine ⟨by rw [foldl_fillStep_num_bits, foldl_applyOp_num_bits],
        fun j => ?_⟩
      have hlen1 : ((((List.range' (e - e % 8) (e % 8 + 1)).reverse).foldl
          (applyOp op) v)).data.length = v.data.length :=
        foldl_applyOp_data_length _ _ _
      rw [check_foldl_fill op _ _ _
        (fun b h1 h2 => by rw [hlen1]; omega) j]
      rw [check_foldl_range'_reverse op _ _ _
        (fun i h1 h2 => hbytes i (by omega)) j]
      split_ifs <;> first | rfl | omega
    · -- both aligned
      rw [if_neg hh, if_neg hh, if_neg ht, if_neg ht,
        wrap_sub (e / 8) (s / 8) (by omega) (by omega) (by omega)]
      refine ⟨foldl_fillStep_num_bits _ _ _, fun j => ?_⟩
      rw [check_foldl_fill op _ _ _ (fun b h1 h2 => by omega) j]
      split_ifs <;> first | rfl | omega

/-- Reading an index below both the old length and the kept prefix of a
reallocated buffer sees the old byte. -/
theorem getD_take_append (l f : List Nat) (m k : Nat) (hk : k < m)
    (hkl : k < l.length) :
    ((l ++ f).take m).getD k 0 = l.getD k 0 := by
  simp [List.getD_eq_getElem?_getD, List.getElem?_take, hk,
    List.getElem?_append, hkl]

/-! ### Binary string codec -/

/-- C `isdigit` on an ASCII character: `'0' <= c <= '9'`. -/
def isdigitB (c : Char) : Bool := 48 ≤ c.toNat && c.toNat ≤ 57

/-- The character loop of `BitArray_init_from_bin`: a non-digit hits
`exit(EXIT_FAILURE)` (modelled `none`); `'0'` clears bit `i`, any other
digit takes the `else` branch and sets bit `i`. -/
def initFromBinLoop : BitArray → Nat → List Char → Option BitArray
  | v, _, [] => some v
  | v, i, c :: cs =>
    if isdigitB c then
      initFromBinLoop
        (if c = '0' then BitArray_clear_bit v i else BitArray_set_bit v i)
        (i + 1) cs
    else none

/-- `BitArray_init_from_bin` -/
def BitArray_init_from_bin (s : List Char) : Option BitArray :=
  initFromBinLoop (BitArray_init s.length) 0 s

/-- `BitArray_min_bin_str_len` -/
def BitArray_min_bin_str_len (v : BitArray) : Nat := v.num_bits + 1

/-- `BitArray_to_bin_str`: the successive `*tmp++ = check_bit(v,i) + '0'`
writes into the caller's buffer, nul-terminated; the value of the produced
C string is the list of written characters. -/
def BitArray_to_bin_str (v : BitArray) : List Char :=
  (List.range (BitArray_min_bin_str_len v - 1)).foldl
    (fun acc i => acc ++ [if BitArray_check_bit v i then '1' else '0']) []

/-- A freshly `calloc`ed vector has every bit clear. -/
theorem check_init (n j : Nat) : BitArray_check_bit (BitArray_init n) j = false := by
  rw [check_eq_testBit]
  show ((List.replicate (bytesFromBits n) 0).getD (j / 8) 0).testBit _ = false
  have : (List.replicate (bytesFromBits n) (0 : Nat)).getD (j / 8) 0 = 0 := by
    simp [List.getD_eq_getElem?_getD, List.getElem?_replicate]
    split <;> rfl
  rw [this, Nat.zero_testBit]

theorem initFromBinLoop_spec (cs : List Char) (v : BitArray) (i : Nat)
    (hall : ∀ c ∈ cs, isdigitB c = true)
    (hlen : ∀ k, k < cs.length → (i + k) / 8 < v.data.length) :
    ∃ w, initFromBinLoop v i cs = some w ∧ w.num_bits = v.num_bits ∧
      w.data.length = v.data.length ∧
      ∀ j, BitArray_check_bit w j =
        if i ≤ j ∧ j < i + cs.length then
          (if cs.getD (j - i) '0' = '0' then false else true)
        else BitArray_check_bit v j := by
  induction cs generalizing v i with
  | nil =>
    exact ⟨v, rfl, rfl, rfl, fun j => by
      rw [if_neg (show ¬ (i ≤ j ∧ j < i + [].length) by
        simp only [List.length_nil]; omega)]⟩
  | cons c cs ih =>
    have hc : isdigitB c = true := hall c (List.mem_cons_self c cs)
    have hi8 : i / 8 < v.data.length := by
      have := hlen 0 (by simp)
      simpa using this
    set v' : BitArray :=
      if c = '0' then BitArray_clear_bit v i else BitArray_set_bit v i with hv'
    have hv'n : v'.num_bits = v.num_bits := by
      rw [hv']; split <;> rfl
    have hv'l : v'.data.length = v.data.length := by
      rw [hv']; split
      · exact applyOp_data_length .clear v i
      · exact applyOp_data_length .set v i
    have hv'c : ∀ j, BitArray_check_bit v' j =
        if j = i then (if c = '0' then false else true)
        else BitArray_check_bit v j := by
      intro j
      rw [hv']; split
      · rw [show BitArray_clear_bit v i = applyOp .clear v i from rfl,
          check_applyOp .clear v i j hi8]
        split <;> rfl
      · rw [show BitArray_set_bit v i = applyOp .set v i from rfl,
          check_applyOp .set v i j hi8]
        split <;> rfl
    have hlen' : ∀ k, k < cs.length → (i + 1 + k) / 8 < v'.data.length := by
      intro k hk
      rw [hv'l]
      have := hlen (k + 1) (by simpa using Nat.succ_lt_succ hk)
      have harr : i + (k + 1) = i + 1 + k := by omega
      rwa [harr] at this
    obtain ⟨w, hw, hwn, hwl, hwc⟩ := ih v' (i + 1)
      (fun d hd => hall d (List.mem_cons_of_mem c hd)) hlen'
    refine ⟨w, ?_, by rw [hwn, hv'n], by rw [hwl, hv'l], fun j => ?_⟩
    · show initFromBinLoop v i (c :: cs) = some w
      rw [initFromBinLoop, if_pos hc, ← hv', hw]
    · rw [hwc j]
      by_cases h1 : i + 1 ≤ j ∧ j < i + 1 + cs.length
      · have h2 : j - i = (j - (i + 1)) + 1 := by omega
        rw [if_pos h1, if_pos (show i ≤ j ∧ j < i + (c :: cs).length by
          simp only [List.length_cons]; omega), h2, List.getD_cons_succ]
      · rw [if_neg h1, hv'c j]
        by_cases h2 : j = i
        · rw [if_pos h2, if_pos (show i ≤ j ∧ j < i + (c :: cs).length by
            simp only [List.length_cons]; omega)]
          rw [show j - i = 0 from by omega, List.getD_cons_zero]
        · rw [if_neg h2, if_neg (show ¬ (i ≤ j ∧ j < i + (c :: cs).length) by
            simp only [List.length_cons]; omega)]

theorem initFromBinLoop_none (cs : List Char) (v : BitArray) (i : Nat)
    (h : ∃ c ∈ cs, ¬ isdigitB c = true) :
    initFromBinLoop v i cs = none := by
  induction cs generalizing v i with
  | nil => obtain ⟨c, hc, -⟩ := h; cases hc
  | cons c cs ih =>
    rw [initFromBinLoop]
    by_cases hc : isdigitB c = true
    · rw [if_pos hc]
      obtain ⟨d, hd, hnd⟩ := h
      rcases List.mem_cons.mp hd with rfl | hd'
      · exact absurd hc hnd
      · exact ih _ _ ⟨d, hd', hnd⟩
    · rw [if_neg hc]

/-- Well-behaved part of `BitArray_init_from_bin`: if every character is a
decimal digit, construction succeeds; `'0'` produces a clear bit, any other
digit a set bit. -/
theorem from_bin_ok (s : List Char) (hall : ∀ c ∈ s, isdigitB c = true) :
    ∃ w, BitArray_init_from_bin s = some w ∧ w.num_bits = s.length ∧
      ∀ j, j < s.length → BitArray_check_bit w j =
        (if s.getD j '0' = '0' then false else true) := by
  have hlen : ∀ k, k < s.length →
      (0 + k) / 8 < (BitArray_init s.length).data.length := by
    intro k hk
    show (0 + k) / 8 < (List.replicate (bytesFromBits s.length) (0 : Nat)).length
    rw [List.length_replicate]
    unfold bytesFromBits
    omega
  obtain ⟨w, hw, hwn, hwl, hwc⟩ :=
    initFromBinLoop_spec s (BitArray_init s.length) 0 hall hlen
  refine ⟨w, hw, by rw [hwn]; rfl, fun j hj => ?_⟩
  rw [hwc j, if_pos (show 0 ≤ j ∧ j < 0 + s.length by omega)]
  rw [show j - 0 = j from rfl]

/-- The 256-entry `bits_set_count_table` of `BitArray_num_set_bits`,
transcribed from the source (hex constants written in decimal). -/
def bits_set_count_table : List Nat :=
  [0, 1, 1, 2, 1, 2, 2, 3, 1, 2, 2, 3, 2, 3, 3, 4, 1, 2, 2, 3, 2, 3, 3, 4, 2,
   3, 3, 4, 3, 4, 4, 5, 1, 2, 2, 3, 2, 3, 3, 4, 2, 3, 3, 4, 3, 4, 4, 5, 2, 3,
   3, 4, 3, 4, 4, 5, 3, 4, 4, 5, 4, 5, 5, 6, 1, 2, 2, 3, 2, 3, 3, 4, 2, 3, 3,
   4, 3, 4, 4, 5, 2, 3, 3, 4, 3, 4, 4, 5, 3, 4, 4, 5, 4, 5, 5, 6, 2, 3, 3, 4,
   3, 4, 4, 5, 3, 4, 4, 5, 4, 5, 5, 6, 3, 4, 4, 5, 4, 5, 5, 6, 4, 5, 5, 6, 5,
   6, 6, 7, 1, 2, 2, 3, 2, 3, 3, 4, 2, 3, 3, 4, 3, 4, 4, 5, 2, 3, 3, 4, 3, 4,
   4, 5, 3, 4, 4, 5, 4, 5, 5, 6, 2, 3, 3, 4, 3, 4, 4, 5, 3, 4, 4, 5, 4, 5, 5,
   6, 3, 4, 4, 5, 4, 5, 5, 6, 4, 5, 5, 6, 5, 6, 6, 7, 2, 3, 3, 4, 3, 4, 4, 5,
   3, 4, 4, 5, 4, 5, 5, 6, 3, 4, 4, 5, 4, 5, 5, 6, 4, 5, 5, 6, 5, 6, 6, 7, 3,
   4, 4, 5, 4, 5, 5, 6, 4, 5, 5, 6, 5, 6, 6, 7, 4, 5, 5, 6, 5, 6, 6, 7, 5, 6,
   6, 7, 6, 7, 7, 8]

/-- `BitArray_num_set_bits`: table lookups over the full bytes, then a
bit-by-bit scan of the remaining bits of the trailing partial byte. -/
def BitArray_num_set_bits (v : BitArray) : Nat :=
  let num_full_bytes := v.num_bits / 8
  let fromBytes := (List.range num_full_bytes).foldl
    (fun acc i => acc + bits_set_count_table.getD (v.data.getD i 0) 0) 0
  let curr_bit_index := num_full_bytes * 8
  let remaining_bits := v.num_bits - curr_bit_index
  (List.range remaining_bits).foldl
    (fun acc k => if BitArray_check_bit v (curr_bit_index + k) then acc + 1
      else acc) fromBytes

/-- `BitArray_num_clear_bits = num_bits - BitArray_num_set_bits` -/
def BitArray_num_clear_bits (v : BitArray) : Nat :=
  v.num_bits - BitArray_num_set_bits v

set_option maxRecDepth 8192 in
/-- The source's 256-entry table agrees with a bit-by-bit count of the
eight bits the MSB-first addressing reads from a byte. -/
theorem table_correct : ∀ b, b < 256 →
    bits_set_count_table.getD b 0 =
      (List.range 8).countP (fun k => Nat.testBit b (7 - k)) := by
  decide

/-- The eight bit positions of full byte `i` contribute exactly the table
entry of that byte. -/
theorem countP_eight (v : BitArray) (hb : ∀ b ∈ v.data, b < 256) (i : Nat)
    (hi : i < v.data.length) :
    (List.range' (8 * i) 8).countP (fun j => BitArray_check_bit v j) =
      bits_set_count_table.getD (v.data.getD i 0) 0 := by
  have hmem : v.data.getD i 0 ∈ v.data := by
    rw [List.getD_eq_getElem?_getD, List.getElem?_eq_getElem hi]
    exact List.getElem_mem hi
  have hb' : v.data.getD i 0 < 256 := hb _ hmem
  rw [List.range'_eq_map_range, List.countP_map]
  rw [List.countP_congr (q := fun k => Nat.testBit (v.data.getD i 0) (7 - k)) ?_]
  · exact (table_correct _ hb').symm
  · intro k hk
    have hk8 : k < 8 := List.mem_range.mp hk
    have h1 : (8 * i + k) / 8 = i := by omega
    have h2 : (8 * i + k) % 8 = k := by omega
    simp only [Function.comp_apply]
    rw [check_eq_testBit, h1, h2]

/-- Summing the table over the first `m` bytes counts the set bits among
the first `8 * m` bit indices. -/
theorem fold_table_count (v : BitArray) (hb : ∀ b ∈ v.data, b < 256) :
    ∀ m, m ≤ v.data.length → ∀ acc,
    (List.range m).foldl
      (fun a i => a + bits_set_count_table.getD (v.data.getD i 0) 0) acc =
      acc + (List.range' 0 (8 * m)).countP (fun j => BitArray_check_bit v j) := by
  intro m
  induction m with
  | zero => intro _ acc; rfl
  | succ m ih =>
    intro hm acc
    rw [List.range_succ, List.foldl_append, List.foldl_cons, List.foldl_nil,
      ih (by omega) acc]
    have hsplit : List.range' 0 (8 * (m + 1)) =
        List.range' 0 (8 * m) ++ List.range' (8 * m) 8 := by
      have h := List.range'_append 0 (8 * m) 8 1
      simp only [Nat.one_mul, Nat.zero_add] at h
      rw [h]
      congr 1
      omega
    rw [hsplit, List.countP_append, countP_eight v hb m (by omega)]
    omega

/-- The trailing bit-by-bit loop counts the set bits in `[c, c + r)`. -/
theorem fold_tail_count (v : BitArray) (c : Nat) :
    ∀ r acc,
    (List.range r).foldl
      (fun acc k => if BitArray_check_bit v (c + k) then acc + 1 else acc) acc =
      acc + (List.range' c r).countP (fun j => BitArray_check_bit v j) := by
  intro r
  induction r with
  | zero => intro acc; rfl
  | succ r ih =>
    intro acc
    rw [List.range_succ, List.foldl_append, List.foldl_cons, List.foldl_nil,
      ih acc, List.range'_concat, List.countP_append]
    have : List.countP (fun j => BitArray_check_bit v j) [c + 1 * r] =
        if BitArray_check_bit v (c + r) then 1 else 0 := by
      rw [List.countP_cons, List.countP_nil]
      simp [Nat.one_mul]
    rw [this]
    split <;> omega

/-! ### Forward bit search -/

/-- Body of the byte loop of `internal_BitArray_find_next`: skip a byte
that cannot contain a `bit_state` bit (`data[byte] > 0` for set,
`data[byte] < 0xFF` for clear), otherwise scan its bits from the start
offset (the search offset in the first byte, 0 afterwards) while the bit
index stays below `num_bits`. -/
def findNextByteScan (v : BitArray) (initial : Nat) (state : Bool)
    (byte : Nat) : Option Nat :=
  if (decide (0 < v.data.getD byte 0) && state) ||
      (decide (v.data.getD byte 0 < 255) && !state) then
    (List.range' (if byte = BYTE_INDEX initial then BIT_OFFSET initial else 0)
        (8 - (if byte = BYTE_INDEX initial then BIT_OFFSET initial else 0))).findSome?
      (fun i =>
        if byte * 8 + i < v.num_bits then
          if BitArray_check_bit v (byte * 8 + i) = state then
            some (byte * 8 + i)
          else none
        else none)
  else none

/-- `internal_BitArray_find_next`: walk the bytes from the one containing
`initial_index` to the last buffer byte; `*result`/`true` is `some`,
`false` is `none`. -/
def internal_BitArray_find_next (v : BitArray) (initial : Nat)
    (state : Bool) : Option Nat :=
  (List.range' (BYTE_INDEX initial)
      (bytesFromBits v.num_bits - BYTE_INDEX initial)).findSome?
    (findNextByteScan v initial state)

/-- `BitArray_next_set_bit` -/
def BitArray_next_set_bit (v : BitArray) (initial : Nat) : Option Nat :=
  internal_BitArray_find_next v initial true

/-- `BitArray_next_clear_bit` -/
def BitArray_next_clear_bit (v : BitArray) (initial : Nat) : Option Nat :=
  internal_BitArray_find_next v initial false

/-- What `find_next` must return: the least index at or after `initial`
(and below `num_bits`) whose bit has the requested state, or `none` when
no such index exists. -/
def FindNextSpec (v : BitArray) (initial : Nat) (state : Bool) :
    Option Nat → Prop
  | some i => initial ≤ i ∧ i < v.num_bits ∧ BitArray_check_bit v i = state ∧
      ∀ j, initial ≤ j → j < i → ¬ BitArray_check_bit v j = state
  | none => ∀ j, initial ≤ j → j < v.num_bits →
      ¬ BitArray_check_bit v j = state

/-- First-hit characterisation of `findSome?` over an ascending range. -/
theorem findSome?_range'_spec (g : Nat → Option Nat) :
    ∀ m a, match (List.range' a m).findSome? g with
      | some x => ∃ i, a ≤ i ∧ i < a + m ∧ g i = some x ∧
          ∀ j, a ≤ j → j < i → g j = none
      | none => ∀ j, a ≤ j → j < a + m → g j = none := by
  intro m
  induction m with
  | zero =>
    intro a
    simp only [List.range', List.findSome?_nil]
    intro j h1 h2
    omega
  | succ m ih =>
    intro a
    rw [List.range'_succ, List.findSome?_cons]
    cases hga : g a with
    | some x =>
      simp only [hga]
      exact ⟨a, le_rfl, by omega, hga, fun j h1 h2 => by omega⟩
    | none =>
      simp only [hga]
      have h := ih (a + 1)
      cases hrest : (List.range' (a + 1) m).findSome? g with
      | some x =>
        rw [hrest] at h
        obtain ⟨i, hi1, hi2, hi3, hi4⟩ := h
        exact ⟨i, by omega, by omega, hi3, fun j h1 h2 => by
          by_cases hj : j = a
          · rw [hj]; exact hga
          · exact hi4 j (by omega) h2⟩
      | none =>
        rw [hrest] at h
        intro j h1 h2
        by_cases hj : j = a
        · rw [hj]; exact hga
        · exact h j (by omega) (by omega)

/-- Behaviour of the byte scan: in the byte's own index window (clipped at
`initial` for the first byte), it returns the first index whose bit matches
`state`, or `none` when the window holds no such index below `num_bits`.
The byte-skip fast path is covered: a zero byte has no set bit and a
`0xFF` byte no clear bit. -/
theorem findNextByteScan_spec (v : BitArray) (hwf : WF v) (initial : Nat)
    (state : Bool) (byte : Nat) :
    match findNextByteScan v initial state byte with
    | some x =>
        (if byte = BYTE_INDEX initial then initial else 8 * byte) ≤ x ∧
        x < v.num_bits ∧ 8 * byte ≤ x ∧ x < 8 * byte + 8 ∧
        BitArray_check_bit v x = state ∧
        ∀ j, (if byte = BYTE_INDEX initial then initial else 8 * byte) ≤ j →
          j < x → ¬ BitArray_check_bit v j = state
    | none => ∀ j,
        (if byte = BYTE_INDEX initial then initial else 8 * byte) ≤ j →
        j < 8 * byte + 8 → j < v.num_bits →
        ¬ BitArray_check_bit v j = state := by
  unfold findNextByteScan
  set b := v.data.getD byte 0 with hbdef
  set i0 := if byte = BYTE_INDEX initial then BIT_OFFSET initial else 0
    with hi0def
  have hoff : BIT_OFFSET initial = initial % 8 := rfl
  have hi0lt : i0 < 8 := by
    rw [hi0def]; split
    · rw [hoff]; omega
    · omega
  have hL : (if byte = BYTE_INDEX initial then initial else 8 * byte)
      = 8 * byte + i0 := by
    rw [hi0def]; split
    · rename_i h
      have : byte = initial / 8 := h
      rw [hoff]; omega
    · omega
  by_cases hg : ((decide (0 < b) && state) || (decide (b < 255) && !state))
      = true
  · rw [if_pos hg]
    set gin : Nat → Option Nat := fun i =>
      if byte * 8 + i < v.num_bits then
        if BitArray_check_bit v (byte * 8 + i) = state then some (byte * 8 + i)
        else none
      else none with hgin
    have h := findSome?_range'_spec gin (8 - i0) i0
    cases hres : (List.range' i0 (8 - i0)).findSome? gin with
    | some x =>
      rw [hres] at h
      obtain ⟨i, hA, hB, hC, hD⟩ := h
      simp only [hgin] at hC
      by_cases hn : byte * 8 + i < v.num_bits
      · rw [if_pos hn] at hC
        by_cases hcs : BitArray_check_bit v (byte * 8 + i) = state
        · rw [if_pos hcs] at hC
          have hx : byte * 8 + i = x := Option.some.inj hC
          refine ⟨by omega, by omega, by omega, by omega, by rw [← hx]; exact hcs,
            fun j hj1 hj2 => ?_⟩
          have hd := hD (j - byte * 8) (by omega) (by omega)
          simp only [hgin] at hd
          rw [show byte * 8 + (j - byte * 8) = j from by omega] at hd
          rw [if_pos (show j < v.num_bits from by omega)] at hd
          intro hcj
          rw [if_pos hcj] at hd
          exact absurd hd (by simp)
        · rw [if_neg hcs] at hC
          exact absurd hC (by simp)
      · rw [if_neg hn] at hC
        exact absurd hC (by simp)
    | none =>
      rw [hres] at h
      intro j hj1 hj2 hj3 hcj
      have hd := h (j - byte * 8) (by omega) (by omega)
      simp only [hgin] at hd
      rw [show byte * 8 + (j - byte * 8) = j from by omega, if_pos hj3,
        if_pos hcj] at hd
      exact absurd hd (by simp)
  · rw [if_neg hg]
    intro j hj1 hj2 hj3 hcj
    have hj8 : j / 8 = byte := by omega
    cases state with
    | true =>
      simp only [Bool.and_true, Bool.not_true, Bool.and_false, Bool.or_false,
        decide_eq_true_eq] at hg
      have hb0 : b = 0 := by omega
      rw [check_eq_testBit, hj8, ← hbdef, hb0] at hcj
      rw [Nat.zero_testBit] at hcj
      exact absurd hcj (by simp)
    | false =>
      simp only [Bool.and_false, Bool.not_false, Bool.and_true, Bool.false_or,
        decide_eq_true_eq] at hg
      have hblen : byte < v.data.length := by
        by_contra hc
        have hb0 : b = 0 := by
          rw [hbdef, List.getD_eq_getElem?_getD,
            List.getElem?_eq_none (by omega)]
          rfl
        omega
      have hbmem : b ∈ v.data := by
        rw [hbdef, List.getD_eq_getElem?_getD, List.getElem?_eq_getElem hblen]
        exact List.getElem_mem hblen
      have hb255 : b = 255 := by
        have := hwf.2.1 b hbmem
        omega
      rw [check_eq_testBit, hj8, ← hbdef, hb255] at hcj
      rw [show (255 : Nat) = 2 ^ 8 - 1 from by norm_num,
        Nat.testBit_two_pow_sub_one] at hcj
      have : 7 - j % 8 < 8 := by omega
      rw [decide_eq_true this] at hcj
      exact absurd hcj (by simp)

/-- Full correctness of the forward search, for any target state. -/
theorem find_next_spec (v : BitArray) (hwf : WF v) (initial : Nat)
    (hin : initial < v.num_bits) (state : Bool) :
    FindNextSpec v initial state (internal_BitArray_find_next v initial state) := by
  have hlen := hwf.1
  have hbN : BYTE_INDEX initial < bytesFromBits v.num_bits := by
    unfold BYTE_INDEX bytesFromBits; omega
  unfold internal_BitArray_find_next
  have h := findSome?_range'_spec (findNextByteScan v initial state)
    (bytesFromBits v.num_bits - BYTE_INDEX initial) (BYTE_INDEX initial)
  cases hres : (List.range' (BYTE_INDEX initial)
      (bytesFromBits v.num_bits - BYTE_INDEX initial)).findSome?
      (findNextByteScan v initial state) with
  | some x =>
    rw [hres] at h
    obtain ⟨byte, hb1, hb2, hb3, hb4⟩ := h
    have hbs := findNextByteScan_spec v hwf initial state byte
    rw [hb3] at hbs
    obtain ⟨hL, hxn, hx8, hx8', hcx, hminb⟩ := hbs
    have hinit8 : initial = 8 * BYTE_INDEX initial + initial % 8 := by
      unfold BYTE_INDEX; omega
    have hIx : initial ≤ x := by
      by_cases hbb : byte = BYTE_INDEX initial
      · rw [if_pos hbb] at hL; exact hL
      · rw [if_neg hbb] at hL
        unfold BYTE_INDEX at hb1 hbb
        omega
    refine ⟨hIx, hxn, hcx, fun j hj1 hj2 => ?_⟩
    by_cases hjb : j / 8 = byte
    · refine hminb j ?_ hj2
      by_cases hbb : byte = BYTE_INDEX initial
      · rw [if_pos hbb]; exact hj1
      · rw [if_neg hbb]; omega
    · have hjlt : j / 8 < byte := by omega
      have hjge : BYTE_INDEX initial ≤ j / 8 := by
        unfold BYTE_INDEX; omega
      have hnone := hb4 (j / 8) hjge hjlt
      have hbs' := findNextByteScan_spec v hwf initial state (j / 8)
      rw [hnone] at hbs'
      refine hbs' j ?_ (by omega) (by omega)
      by_cases hbb : j / 8 = BYTE_INDEX initial
      · rw [if_pos hbb]; exact hj1
      · rw [if_neg hbb]; omega
  | none =>
    rw [hres] at h
    intro j hj1 hj2
    have hjge : BYTE_INDEX initial ≤ j / 8 := by
      unfold BYTE_INDEX; omega
    have hjN : j / 8 < bytesFromBits v.num_bits := by
      unfold bytesFromBits; omega
    have hnone := h (j / 8) hjge (by omega)
    have hbs' := findNextByteScan_spec v hwf initial state (j / 8)
    rw [hnone] at hbs'
    refine hbs' j ?_ (by omega) hj2
    by_cases hbb : j / 8 = BYTE_INDEX initial
    · rw [if_pos hbb]; exact hj1
    · rw [if_neg hbb]; omega

/-! ### Persistence (save / load as byte streams) -/

/-- `FILE_HEADER = "BitArray_Data_File"` (18 ASCII bytes, no nul within). -/
def FILE_HEADER_BYTES : List Nat :=
  [66, 105, 116, 65, 114, 114, 97, 121, 95, 68, 97, 116, 97, 95, 70, 105,
   108, 101]

/-- Little-endian bytes of a `size_t` (the platform-native encoding
`fwrite(&num_bits, sizeof(index_t), 1, fp)` produces on x86-64,
`sizeof(index_t) = 8`). -/
def natToLEBytes : Nat → Nat → List Nat
  | 0, _ => []
  | k + 1, x => x % 256 :: natToLEBytes k (x / 256)

/-- Inverse reading of the same native encoding by `fread`. -/
def leBytesToNat : List Nat → Nat
  | [] => 0
  | b :: bs => b + 256 * leBytesToNat bs

/-- `strcmp(a, b) == 0` on nul-terminated buffers: compare until the first
difference or a common nul. -/
def cstrEq : List Nat → List Nat → Bool
  | [], [] => true
  | [], _ :: _ => false
  | _ :: _, [] => false
  | a :: as, b :: bs =>
    if a ≠ b then false else if a = 0 then true else cstrEq as bs

/-- `BitArray_save`: the byte stream written to the file — the 18-byte
magic header, `num_bits` in native width and endianness, then the raw
buffer.  (I/O errors are environmental and not modelled.) -/
def BitArray_save (v : BitArray) : List Nat :=
  FILE_HEADER_BYTES ++ natToLEBytes 8 v.num_bits ++ v.data

/-- `BitArray_load` on the byte stream read from the file: each `fread`
that cannot deliver the requested count fails; the header is compared by
`strcmp` against the zero-initialised 19-byte buffer; then a vector of the
read bit count is allocated and exactly `ceil(num_bits/8)` data bytes are
read into it.  Extra trailing bytes are ignored (the C never checks EOF). -/
def BitArray_load (s : List Nat) : Option BitArray :=
  if s.length < 18 then none
  else if cstrEq (s.take 18 ++ [0]) (FILE_HEADER_BYTES ++ [0]) then
    let rest := s.drop 18
    if rest.length < 8 then none
    else
      let num_bits := leBytesToNat (rest.take 8)
      let rest2 := rest.drop 8
      if rest2.length < bytesFromBits num_bits then none
      else some ⟨num_bits, rest2.take (bytesFromBits num_bits)⟩
  else none

theorem natToLEBytes_length : ∀ k x, (natToLEBytes k x).length = k := by
  intro k
  induction k with
  | zero => intro x; rfl
  | succ k ih =>
    intro x
    show (x % 256 :: natToLEBytes k (x / 256)).length = k + 1
    rw [List.length_cons, ih]

theorem le_roundtrip : ∀ k x, x < 256 ^ k →
    leBytesToNat (natToLEBytes k x) = x := by
  intro k
  induction k with
  | zero =>
    intro x hx
    simp only [Nat.pow_zero] at hx
    show 0 = x
    omega
  | succ k ih =>
    intro x hx
    show x % 256 + 256 * leBytesToNat (natToLEBytes k (x / 256)) = x
    have hdiv : x / 256 < 256 ^ k := by
      rw [Nat.pow_succ] at hx
      exact Nat.div_lt_of_lt_mul (by omega)
    rw [ih (x / 256) hdiv]
    omega

theorem cstrEq_iff (h : List Nat) : ∀ a : List Nat, a.length = h.length →
    (∀ x ∈ h, x ≠ 0) →
    (cstrEq (a ++ [0]) (h ++ [0]) = true ↔ a = h) := by
  induction h with
  | nil =>
    intro a hlen h0
    cases a with
    | nil => simp [cstrEq]
    | cons x xs => simp at hlen
  | cons b bs ih =>
    intro a hlen h0
    cases a with
    | nil => simp at hlen
    | cons x xs =>
      simp only [List.cons_append, cstrEq]
      have hb : b ≠ 0 := h0 b (List.mem_cons_self b bs)
      by_cases hxb : x = b
      · rw [if_neg (by simp [hxb]), if_neg (by omega : ¬ x = 0)]
        show cstrEq (xs ++ [0]) (bs ++ [0]) = true ↔ x :: xs = b :: bs
        rw [ih xs (by simpa using hlen)
          (fun y hy => h0 y (List.mem_cons_of_mem b hy))]
        constructor
        · intro he; rw [hxb, he]
        · intro he; exact (List.cons.injEq x xs b bs ▸ he).2
      · rw [if_pos hxb]
        constructor
        · intro hf; exact absurd hf (by simp)
        · intro he
          exact absurd ((List.cons.injEq x xs b bs ▸ he).1) hxb

/-! ### Hex string encoding -/

/-- The nul terminator written by `sprintf` and `*dst = '\0'`. -/
def nulChar : Char := Char.ofNat 0

/-- One uppercase hex digit. -/
def hexDigitChar (n : Nat) : Char :=
  if n < 10 then Char.ofNat (48 + n) else Char.ofNat (55 + n)

/-- The characters `sprintf "%X"` produces for a value below 256:
uppercase, no leading zeros (one digit under 16, two otherwise). -/
def hexRepr (n : Nat) : List Char :=
  if n < 16 then [hexDigitChar n]
  else [hexDigitChar (n / 16), hexDigitChar (n % 16)]

/-- Overwrite buffer contents starting at position `p`; writes past the
end of the buffer leave it unchanged (out-of-allocation stores are outside
the model, and nothing after the final nul is ever read back). -/
def writeAt : List Char → Nat → List Char → List Char
  | buf, _, [] => buf
  | buf, p, c :: cs => writeAt (buf.set p c) (p + 1) cs

/-- `BitArray_min_hex_str_len`: `POS_CEIL(num_bits / 4.0) + 1`, exact in
`long double` for every `size_t`. -/
def BitArray_min_hex_str_len (v : BitArray) : Nat := (v.num_bits + 3) / 4 + 1

/-- The nibble the hex loop reads for 1-based nibble index `i`:
`data[(i - 1) / 2] & (0x0F << ((i & 1) * 4))` — note it is *not* shifted
down, the loop prints it raw and the overlapping one-char-apart `sprintf`
calls overwrite the spurious trailing `'0'`. -/
def loopNibble (v : BitArray) (i : Nat) : Nat :=
  v.data.getD ((i - 1) / 2) 0 &&& (15 <<< ((i &&& 1) * 4))

/-- `BitArray_to_hex_str` as an action on the caller's buffer: each
`sprintf(dst++, "%X", nibble)` writes the hex digits plus a nul at the
current position and advances by one character, the final
`sprintf(dst++, "%X\n", ...)` appends a newline and a nul, and
`*dst = '\0'` terminates.  Returns the final buffer contents. -/
def BitArray_to_hex_str (v : BitArray) (buf : List Char) : List Char :=
  if v.num_bits = 0 then writeAt buf 0 [nulChar]
  else
    let num_nibbles := BitArray_min_hex_str_len v - 1
    let buf1 := (List.range' 1 (num_nibbles - 1)).foldl
      (fun b i => writeAt b (i - 1) (hexRepr (loopNibble v i) ++ [nulChar]))
      buf
    let nibble0 := loopNibble v num_nibbles
    let bits_in_last_nibble := v.num_bits % 4
    let nibble1 := if bits_in_last_nibble ≠ 0 then
        nibble0 >>> (4 - bits_in_last_nibble)
      else nibble0
    let lastVal := nibble1 >>> (if num_nibbles &&& 1 = 1 then 4 else 0)
    let buf2 := writeAt buf1 (num_nibbles - 1)
      (hexRepr lastVal ++ [Char.ofNat 10, nulChar])
    writeAt buf2 num_nibbles [nulChar]

/-- The value of the C string sitting in the buffer: everything before the
first nul. -/
def cString (buf : List Char) : List Char :=
  buf.takeWhile (fun c => c != nulChar)

/-- The value of the final partial nibble read MSB-first from the bits
themselves — i.e. the left-zero-padded interpretation the spec demands. -/
def lastNibbleSpec (v : BitArray) : Nat :=
  let nn := (v.num_bits + 3) / 4
  (List.range (v.num_bits - 4 * (nn - 1))).foldl
    (fun acc k =>
      2 * acc + (if BitArray_check_bit v (4 * (nn - 1) + k) then 1 else 0)) 0

theorem getD_set_poly {α : Type} (l : List α) (i j : Nat) (a d : α) :
    (l.set i a).getD j d = if i = j ∧ i < l.length then a else l.getD j d := by
  simp only [List.getD_eq_getElem?_getD, List.getElem?_set]
  by_cases hij : i = j
  · subst hij
    by_cases hl : i < l.length
    · simp [hl]
    · simp [hl, List.getElem?_eq_none (Nat.le_of_not_lt hl)]
  · simp [hij]

theorem writeAt_length : ∀ (s buf : List Char) (p : Nat),
    (writeAt buf p s).length = buf.length := by
  intro s
  induction s with
  | nil => intro buf p; rfl
  | cons c cs ih =>
    intro buf p
    show (writeAt (buf.set p c) (p + 1) cs).length = buf.length
    rw [ih, List.length_set]

theorem getD_writeAt : ∀ (s buf : List Char) (p q : Nat) (d : Char),
    (writeAt buf p s).getD q d =
      if p ≤ q ∧ q < p + s.length ∧ q < buf.length then s.getD (q - p) d
      else buf.getD q d := by
  intro s
  induction s with
  | nil =>
    intro buf p q d
    show buf.getD q d = _
    rw [if_neg (by simp only [List.length_nil]; omega)]
  | cons c cs ih =>
    intro buf p q d
    show (writeAt (buf.set p c) (p + 1) cs).getD q d = _
    rw [ih, List.length_set, getD_set_poly]
    by_cases hq : q = p
    · rw [if_neg (show ¬ (p + 1 ≤ q ∧ q < p + 1 + cs.length ∧ q < buf.length)
        from by omega)]
      by_cases hl : q < buf.length
      · rw [if_pos (show p = q ∧ p < buf.length from by omega),
          if_pos (show p ≤ q ∧ q < p + (c :: cs).length ∧ q < buf.length
            from by simp only [List.length_cons]; omega)]
        rw [show q - p = 0 from by omega, List.getD_cons_zero]
      · rw [if_neg (show ¬ (p = q ∧ p < buf.length) from by omega),
          if_neg (show ¬ (p ≤ q ∧ q < p + (c :: cs).length ∧ q < buf.length)
            from by simp only [List.length_cons]; omega)]
    · rw [if_neg (show ¬ (p = q ∧ p < buf.length) from by omega)]
      by_cases hin : p + 1 ≤ q ∧ q < p + 1 + cs.length ∧ q < buf.length
      · rw [if_pos hin,
          if_pos (show p ≤ q ∧ q < p + (c :: cs).length ∧ q < buf.length
            from by simp only [List.length_cons]; omega)]
        rw [show q - p = (q - (p + 1)) + 1 from by omega, List.getD_cons_succ]
      · rw [if_neg hin,
          if_neg (show ¬ (p ≤ q ∧ q < p + (c :: cs).length ∧ q < buf.length)
            from by simp only [List.length_cons]; omega)]

theorem hexRepr_getD_head (x : Nat) :
    (hexRepr x).getD 0 nulChar = hexDigitChar (if x < 16 then x else x / 16) := by
  unfold hexRepr
  split <;> rfl

theorem hexRepr_length_pos (x : Nat) : 0 < (hexRepr x).length := by
  unfold hexRepr
  split <;> simp

theorem hexDigitChar_ne_nul : ∀ m, m < 16 →
    (hexDigitChar m != nulChar) = true := by
  decide

theorem loopNibble_lt (v : BitArray) (i : Nat) : loopNibble v i < 256 := by
  unfold loopNibble
  have h1 : (i &&& 1) = i % 2 := Nat.and_one_is_mod i
  rcases Nat.mod_two_eq_zero_or_one i with h | h <;> rw [h1, h]
  · have h2 := Nat.and_le_right
      (n := v.data.getD ((i - 1) / 2) 0) (m := 15 <<< (0 * 4))
    have h3 : (15 : Nat) <<< (0 * 4) = 15 := rfl
    omega
  · have h2 := Nat.and_le_right
      (n := v.data.getD ((i - 1) / 2) 0) (m := 15 <<< (1 * 4))
    have h3 : (15 : Nat) <<< (1 * 4) = 240 := rfl
    omega

/-- After the hex loop has processed nibbles `1 .. k`, buffer position
`p < k` holds the first character `sprintf "%X"` produced for nibble
`p + 1`; later writes of the loop never move below their own position. -/
theorem hex_loop (v : BitArray) (buf : List Char) :
    ∀ k, k ≤ buf.length →
    ((List.range' 1 k).foldl
      (fun b i => writeAt b (i - 1) (hexRepr (loopNibble v i) ++ [nulChar]))
      buf).length = buf.length ∧
    ∀ p, p < k →
      ((List.range' 1 k).foldl
        (fun b i => writeAt b (i - 1) (hexRepr (loopNibble v i) ++ [nulChar]))
        buf).getD p nulChar = (hexRepr (loopNibble v (p + 1))).getD 0 nulChar := by
  intro k
  induction k with
  | zero => intro hk; exact ⟨rfl, fun p hp => absurd hp (by omega)⟩
  | succ k ih =>
    intro hk
    obtain ⟨ihlen, ihval⟩ := ih (by omega)
    rw [List.range'_concat, show 1 + 1 * k = k + 1 from by omega,
      List.foldl_concat]
    constructor
    · rw [writeAt_length, ihlen]
    · intro p hp
      rw [show k + 1 - 1 = k from by omega, getD_writeAt]
      by_cases hpk : p < k
      · rw [if_neg (by omega)]
        exact ihval p hpk
      · have hpk' : p = k := by omega
        have hlenw : 0 < (hexRepr (loopNibble v (k + 1)) ++ [nulChar]).length := by
          rw [List.length_append]
          have := hexRepr_length_pos (loopNibble v (k + 1))
          omega
        rw [if_pos ⟨by omega, by omega, by rw [ihlen]; omega⟩]
        rw [hpk', show k - k = 0 from by omega]
        rw [List.getD_append _ _ _ 0 (hexRepr_length_pos _)]

/-- A list whose first `n` characters are non-nul and whose `n`-th is nul
reads back as its first `n` characters. -/
theorem takeWhile_eq_take_of_nul (l : List Char) :
    ∀ n, n < l.length →
    (∀ p, p < n → (l.getD p nulChar != nulChar) = true) →
    l.getD n nulChar = nulChar →
    l.takeWhile (fun c => c != nulChar) = l.take n := by
  induction l with
  | nil =>
    intro n hn
    simp at hn
  | cons c t ih =>
    intro n hn hall hnul
    cases n with
    | zero =>
      have hc : c = nulChar := by
        rw [List.getD_cons_zero] at hnul
        exact hnul
      rw [List.takeWhile_cons, hc]
      simp
    | succ n =>
      have hc : (c != nulChar) = true := by
        have := hall 0 (by omega)
        rw [List.getD_cons_zero] at this
        exact this
      rw [List.takeWhile_cons, if_pos hc, List.take_succ_cons]
      congr 1
      refine ih n (by simpa using hn) (fun p hp => ?_) ?_
      · have := hall (p + 1) (by omega)
        rw [List.getD_cons_succ] at this
        exact this
      · rw [List.getD_cons_succ] at hnul
        exact hnul

set_option maxRecDepth 8192 in
/-- Byte-level fact (checked over all 256 byte values): for an odd last
nibble index, the code's `((B & 0xF0) >> (4 - b)) >> 4` equals the value
of the top `b` bits of the byte read MSB-first, and is a single hex
digit. -/
theorem hex_last_odd : ∀ B, B < 256 → ∀ b, b < 4 → 0 < b →
    ((B &&& 240) >>> (4 - b)) >>> 4 =
      (List.range b).foldl
        (fun acc k => 2 * acc + (if Nat.testBit B (7 - k) then 1 else 0)) 0 ∧
    ((B &&& 240) >>> (4 - b)) >>> 4 < 16 := by
  decide

set_option maxRecDepth 8192 in
/-- Byte-level fact: for an even last nibble index, `(B & 0x0F) >> (4 - b)`
equals the value of bits `4 .. 4+b-1` of the byte read MSB-first, and is a
single hex digit. -/
theorem hex_last_even : ∀ B, B < 256 → ∀ b, b < 4 → 0 < b →
    (B &&& 15) >>> (4 - b) =
      (List.range b).foldl
        (fun acc k => 2 * acc + (if Nat.testBit B (3 - k) then 1 else 0)) 0 ∧
    (B &&& 15) >>> (4 - b) < 16 := by
  decide

theorem getLast?_take_of (l : List Char) (n : Nat) (hn : 0 < n)
    (hl : n ≤ l.length) :
    (l.take n).getLast? = some (l.getD (n - 1) nulChar) := by
  rw [List.getLast?_eq_getElem?, List.length_take]
  have hmin : min n l.length = n := by omega
  rw [hmin, List.getElem?_take, if_pos (by omega : n - 1 < n),
    List.getElem?_eq_getElem (show n - 1 < l.length by omega),
    List.getD_eq_getElem?_getD,
    List.getElem?_eq_getElem (show n - 1 < l.length by omega)]
  rfl

/-- The string the hex encoder leaves in the buffer: `nn` hex digits — the
loop digits at positions `0 .. nn-2`, the final (shifted) digit at
`nn - 1` — terminated by the nul at position `nn`. -/
theorem hex_out_string (v : BitArray) (buf : List Char) (nn lastVal : Nat)
    (h1 : 1 ≤ nn) (hbuflen : buf.length = nn + 1) (hlt : lastVal < 16) :
    (cString (writeAt (writeAt
        ((List.range' 1 (nn - 1)).foldl
          (fun b i => writeAt b (i - 1) (hexRepr (loopNibble v i) ++ [nulChar]))
          buf)
        (nn - 1) (hexRepr lastVal ++ [Char.ofNat 10, nulChar]))
      nn [nulChar])).length = nn ∧
    (cString (writeAt (writeAt
        ((List.range' 1 (nn - 1)).foldl
          (fun b i => writeAt b (i - 1) (hexRepr (loopNibble v i) ++ [nulChar]))
          buf)
        (nn - 1) (hexRepr lastVal ++ [Char.ofNat 10, nulChar]))
      nn [nulChar])).getLast? = some (hexDigitChar lastVal) := by
  obtain ⟨h1len, h1val⟩ := hex_loop v buf (nn - 1) (by omega)
  set buf1 := (List.range' 1 (nn - 1)).foldl
    (fun b i => writeAt b (i - 1) (hexRepr (loopNibble v i) ++ [nulChar])) buf
    with hbuf1
  have hreprLast : hexRepr lastVal = [hexDigitChar lastVal] := by
    unfold hexRepr
    rw [if_pos hlt]
  set buf2 := writeAt buf1 (nn - 1)
    (hexRepr lastVal ++ [Char.ofNat 10, nulChar]) with hbuf2
  set bufF := writeAt buf2 nn [nulChar] with hbufF
  have h2len : buf2.length = nn + 1 := by
    rw [hbuf2, writeAt_length, h1len, hbuflen]
  have hFlen : bufF.length = nn + 1 := by
    rw [hbufF, writeAt_length, h2len]
  have hlast : bufF.getD (nn - 1) nulChar = hexDigitChar lastVal := by
    rw [hbufF, getD_writeAt, if_neg (by omega)]
    rw [hbuf2, getD_writeAt, hreprLast]
    rw [if_pos ⟨le_rfl, by simp only [List.cons_append, List.nil_append,
      List.length_cons, List.length_nil]; omega, by rw [h1len, hbuflen]; omega⟩]
    rw [show nn - 1 - (nn - 1) = 0 from by omega]
    rfl
  have hmid : ∀ p, p < nn - 1 → bufF.getD p nulChar =
      (hexRepr (loopNibble v (p + 1))).getD 0 nulChar := by
    intro p hp
    rw [hbufF, getD_writeAt, if_neg (by omega)]
    rw [hbuf2, getD_writeAt, if_neg (by omega)]
    exact h1val p hp
  have hnul : bufF.getD nn nulChar = nulChar := by
    rw [hbufF, getD_writeAt,
      if_pos ⟨le_rfl, by simp only [List.length_cons, List.length_nil]; omega,
        by rw [h2len]; omega⟩]
    rw [show nn - nn = 0 from by omega]
    rfl
  have hget : ∀ p, p < nn → (bufF.getD p nulChar != nulChar) = true := by
    intro p hp
    by_cases hpe : p = nn - 1
    · rw [hpe, hlast]
      exact hexDigitChar_ne_nul lastVal hlt
    · rw [hmid p (by omega), hexRepr_getD_head]
      have hx256 := loopNibble_lt v (p + 1)
      refine hexDigitChar_ne_nul _ ?_
      split <;> omega
  have hTW : bufF.takeWhile (fun c => c != nulChar) = bufF.take nn :=
    takeWhile_eq_take_of_nul bufF nn (by omega) hget hnul
  have hcs : cString bufF = bufF.take nn := hTW
  constructor
  · rw [hcs, List.length_take]
    omega
  · rw [hcs, getLast?_take_of bufF nn (by omega) (by omega), hlast]

/-! ### Claim theorems -/

/-- C1: for `start <= end < size(v)`, `BitArray_set_region` sets exactly the
bits of `[start, end]` to 1, `BitArray_clear_region` clears exactly those
bits, and `BitArray_toggle_region` flips exactly those bits; every bit
outside `[start, end]` is unchanged, and the bit count is unchanged.  The
proof goes through the head / body / tail decomposition of
`internal_BitArray_operate_region`. -/
theorem claim_C1_region_ops (v : BitArray) (hwf : WF v) (s e : Nat)
    (hse : s ≤ e) (he : e < BitArray_size v) :
    ((BitArray_set_region v s e).num_bits = v.num_bits ∧
      ∀ j, BitArray_check_bit (BitArray_set_region v s e) j =
        if s ≤ j ∧ j ≤ e then true else BitArray_check_bit v j) ∧
    ((BitArray_clear_region v s e).num_bits = v.num_bits ∧
      ∀ j, BitArray_check_bit (BitArray_clear_region v s e) j =
        if s ≤ j ∧ j ≤ e then false else BitArray_check_bit v j) ∧
    ((BitArray_toggle_region v s e).num_bits = v.num_bits ∧
      ∀ j, BitArray_check_bit (BitArray_toggle_region v s e) j =
        if s ≤ j ∧ j ≤ e then !(BitArray_check_bit v j)
        else BitArray_check_bit v j) := by
  refine ⟨?_, ?_, ?_⟩
  · obtain ⟨h1, h2⟩ := operate_region_char v hwf .set s e hse he
    exact ⟨h1, fun j => by unfold BitArray_set_region; rw [h2 j]; rfl⟩
  · obtain ⟨h1, h2⟩ := operate_region_char v hwf .clear s e hse he
    exact ⟨h1, fun j => by unfold BitArray_clear_region; rw [h2 j]; rfl⟩
  · obtain ⟨h1, h2⟩ := operate_region_char v hwf .toggle s e hse he
    exact ⟨h1, fun j => by unfold BitArray_toggle_region; rw [h2 j]; rfl⟩

/-- C1 witness: a 24-bit vector, region `[3, 20]` (head, body and tail all
exercised). -/
theorem claim_C1_region_ops_witness :
    3 ≤ 20 ∧ 20 < BitArray_size ⟨24, [171, 205, 239]⟩ ∧
    WF ⟨24, [171, 205, 239]⟩ ∧
    ∀ j, BitArray_check_bit (BitArray_set_region ⟨24, [171, 205, 239]⟩ 3 20) j =
      if 3 ≤ j ∧ j ≤ 20 then true
      else BitArray_check_bit ⟨24, [171, 205, 239]⟩ j :=
  ⟨by decide, by decide, by decide,
    (claim_C1_region_ops ⟨24, [171, 205, 239]⟩ (by decide) 3 20 (by decide)
      (by decide)).1.2⟩

/-- C2 (refuted by the code, bug): the C intends to swap the bounds
(`start = MIN(start, end); end = MAX(start, end);`) but the second
assignment reads the already-updated `start`, so `end` keeps its original
value: a call with `start > end` degenerates to the single bit
`min(start, end)` instead of covering the whole region.  Concretely,
`BitArray_set_region(v, 5, 2)` on an 8-bit zero vector sets only bit 2
(buffer `0x20`), not bits 2..5 (buffer `0x3C`), so it differs from
`BitArray_set_region(v, 2, 5)` and in particular leaves bit 5 clear. -/
theorem claim_C2_swap_bug :
    BitArray_set_region ⟨8, [0]⟩ 5 2 = ⟨8, [32]⟩ ∧
    BitArray_set_region ⟨8, [0]⟩ 2 5 = ⟨8, [60]⟩ ∧
    ¬ BitArray_set_region ⟨8, [0]⟩ 5 2 = BitArray_set_region ⟨8, [0]⟩ 2 5 ∧
    BitArray_check_bit (BitArray_set_region ⟨8, [0]⟩ 5 2) 5 = false ∧
    BitArray_check_bit (BitArray_set_region ⟨8, [0]⟩ 5 2) 2 = true := by
  decide

/-- C4: a successful resize to `new > 0` bits yields `new` bits, preserves
every bit below `min(old, new)`, and clears every grown bit in
`[old, new)`.  `fresh` is the uninitialised memory `realloc` may append;
the statement holds for every such junk. -/
theorem claim_C4_resize (v : BitArray) (hwf : WF v) (size : Nat)
    (hpos : 0 < size) (fresh : List Nat)
    (hflen : bytesFromBits size ≤ v.data.length + fresh.length)
    (hf256 : ∀ b ∈ fresh, b < 256) (hsz : size < 2 ^ 64) :
    ∃ w, BitArray_resize v size fresh = some w ∧ w.num_bits = size ∧
      (∀ i, i < min v.num_bits size →
        BitArray_check_bit w i = BitArray_check_bit v i) ∧
      (∀ i, v.num_bits ≤ i → i < size → BitArray_check_bit w i = false) := by
  obtain ⟨hlen, h256, hn64⟩ := hwf
  simp only [BitArray_resize]
  rw [if_neg (show ¬ size = 0 by omega)]
  have hd1len : ((v.data ++ fresh).take (bytesFromBits size)).length
      = bytesFromBits size := by
    rw [List.length_take, List.length_append]; omega
  have hd1byte : ∀ b ∈ (v.data ++ fresh).take (bytesFromBits size), b < 256 := by
    intro b hb
    have := (List.take_sublist _ _).subset hb
    rcases List.mem_append.mp this with h | h
    · exact h256 b h
    · exact hf256 b h
  have hsame : ∀ i, i < v.num_bits → i < size →
      BitArray_check_bit ⟨size, (v.data ++ fresh).take (bytesFromBits size)⟩ i
        = BitArray_check_bit v i := by
    intro i h1 h2
    rw [check_eq_testBit, check_eq_testBit]
    show (((v.data ++ fresh).take (bytesFromBits size)).getD (i / 8) 0).testBit _ = _
    rw [getD_take_append v.data fresh _ (i / 8)
      (by unfold bytesFromBits; omega)
      (by rw [hlen]; unfold bytesFromBits; omega)]
  by_cases hgrow : v.num_bits < size
  · rw [if_pos hgrow]
    have hwf1 : WF ⟨size, (v.data ++ fresh).take (bytesFromBits size)⟩ :=
      ⟨hd1len, hd1byte, hsz⟩
    obtain ⟨hn, hp⟩ := operate_region_char _ hwf1 .clear v.num_bits (size - 1)
      (by omega) (by show size - 1 < size; omega)
    refine ⟨_, rfl, by rw [show BitArray_clear_region _ _ _ =
      internal_BitArray_operate_region _ v.num_bits (size - 1) .clear from rfl, hn],
      fun i hi => ?_, fun i h1 h2 => ?_⟩
    · rw [show BitArray_clear_region _ _ _ =
        internal_BitArray_operate_region _ v.num_bits (size - 1) .clear from rfl,
        hp i, if_neg (by omega)]
      exact hsame i (by omega) (by omega)
    · rw [show BitArray_clear_region _ _ _ =
        internal_BitArray_operate_region _ v.num_bits (size - 1) .clear from rfl,
        hp i, if_pos (by omega)]
      rfl
  · rw [if_neg hgrow]
    exact ⟨_, rfl, rfl, fun i hi => hsame i (by omega) (by omega),
      fun i h1 h2 => by omega⟩

/-- C4 witness: grow an 8-bit vector `0xAB` to 16 bits with junk memory
`0xFF` appended by `realloc`. -/
theorem claim_C4_resize_witness :
    WF ⟨8, [171]⟩ ∧ 0 < 16 ∧
    ∃ w, BitArray_resize ⟨8, [171]⟩ 16 [255] = some w ∧ w.num_bits = 16 ∧
      (∀ i, i < min (8 : Nat) 16 →
        BitArray_check_bit w i = BitArray_check_bit ⟨8, [171]⟩ i) ∧
      (∀ i, 8 ≤ i → i < 16 → BitArray_check_bit w i = false) :=
  ⟨by decide, by decide,
    claim_C4_resize ⟨8, [171]⟩ (by decide) 16 (by decide) [255] (by decide)
      (by decide) (by decide)⟩

/-- C10: `BitArray_resize(v, 0)` is rejected up front — the C returns `NULL`
before touching the vector, modelled as `none` — while `BitArray_init(0)`
is a valid zero-length vector (zero bits, zero bytes, well-formed). -/
theorem claim_C10_resize_zero (v : BitArray) (fresh : List Nat) :
    BitArray_resize v 0 fresh = none ∧
    (BitArray_init 0).num_bits = 0 ∧ (BitArray_init 0).data = [] ∧
    WF (BitArray_init 0) := by
  exact ⟨rfl, rfl, rfl, by decide⟩

/-- C6 counterexample: the claim says any character other than `'0'` or
`'1'` aborts construction, but `BitArray_init_from_bin("5")` succeeds —
the code only rejects non-digits (`!isdigit(val)`), and every non-`'0'`
digit falls into the `else` branch that sets the bit. -/
theorem claim_C6_counterexample :
    BitArray_init_from_bin ['5'] = some ⟨1, [128]⟩ ∧
    BitArray_check_bit ⟨1, [128]⟩ 0 = true := by
  decide

/-- C6 (amended): `BitArray_init_from_bin` decodes `'0'` to a clear bit and
every other decimal digit (`'1'`-`'9'`) to a set bit, producing a vector of
length `len(s)`; it aborts with InvalidFormat exactly when `s` contains a
character that is not a decimal digit. -/
theorem claim_C6_from_bin (s : List Char) :
    ((∀ c ∈ s, isdigitB c = true) →
      ∃ w, BitArray_init_from_bin s = some w ∧ w.num_bits = s.length ∧
        ∀ j, j < s.length → BitArray_check_bit w j =
          (if s.getD j '0' = '0' then false else true)) ∧
    ((∃ c ∈ s, ¬ isdigitB c = true) → BitArray_init_from_bin s = none) := by
  exact ⟨fun hall => from_bin_ok s hall,
    fun h => initFromBinLoop_none s (BitArray_init s.length) 0 h⟩

/-- C6 witness: `"059"` (all digits, `'5'` and `'9'` give set bits) and
`"0f"` (a non-digit aborts). -/
theorem claim_C6_from_bin_witness :
    (∃ w, BitArray_init_from_bin ['0', '5', '9'] = some w ∧
      w.num_bits = ['0', '5', '9'].length ∧
      ∀ j, j < ['0', '5', '9'].length → BitArray_check_bit w j =
        (if ['0', '5', '9'].getD j '0' = '0' then false else true)) ∧
    BitArray_init_from_bin ['0', 'f'] = none :=
  ⟨(claim_C6_from_bin ['0', '5', '9']).1 (by decide),
    (claim_C6_from_bin ['0', 'f']).2 ⟨'f', by decide, by decide⟩⟩

/-- C8: `BitArray_init_from_bin` decodes the string produced by
`BitArray_to_bin_str` back into a vector with the same bit count and the
same value at every valid index, for every vector — including the empty
one, whose binary string is `""`. -/
theorem claim_C8_bin_roundtrip (v : BitArray) :
    (v.num_bits = 0 → BitArray_to_bin_str v = []) ∧
    ∃ w, BitArray_init_from_bin (BitArray_to_bin_str v) = some w ∧
      w.num_bits = v.num_bits ∧
      ∀ i, i < v.num_bits → BitArray_check_bit w i = BitArray_check_bit v i := by
  have hmap : BitArray_to_bin_str v = (List.range v.num_bits).map
      (fun i => if BitArray_check_bit v i then '1' else '0') := by
    unfold BitArray_to_bin_str BitArray_min_bin_str_len
    simp only [Nat.add_sub_cancel]
    induction v.num_bits with
    | zero => rfl
    | succ n ih =>
      rw [List.range_succ, List.foldl_append, List.map_append, ih,
        List.foldl_cons, List.foldl_nil]
      rfl
  constructor
  · intro h0; rw [hmap, h0]; rfl
  · have hlen : (BitArray_to_bin_str v).length = v.num_bits := by
      rw [hmap, List.length_map, List.length_range]
    have hall : ∀ c ∈ BitArray_to_bin_str v, isdigitB c = true := by
      intro c hc
      rw [hmap] at hc
      obtain ⟨i, -, hi⟩ := List.mem_map.mp hc
      rw [← hi]
      by_cases h : BitArray_check_bit v i = true
      · rw [if_pos h]; decide
      · rw [if_neg h]; decide
    obtain ⟨w, hw, hwn, hwc⟩ := from_bin_ok (BitArray_to_bin_str v) hall
    refine ⟨w, hw, by rw [hwn, hlen], fun i hi => ?_⟩
    rw [hwc i (by omega : i < (BitArray_to_bin_str v).length)]
    have hgd : (BitArray_to_bin_str v).getD i '0' =
        if BitArray_check_bit v i then '1' else '0' := by
      rw [hmap, List.getD_eq_getElem?_getD, List.getElem?_map,
        List.getElem?_range hi]
      rfl
    rw [hgd]
    cases h : BitArray_check_bit v i <;> simp

/-- C8 witness: the empty vector round-trips through `""`. -/
theorem claim_C8_bin_roundtrip_witness :
    BitArray_to_bin_str ⟨0, []⟩ = [] ∧
    ∃ w, BitArray_init_from_bin (BitArray_to_bin_str ⟨0, []⟩) = some w ∧
      w.num_bits = 0 ∧
      ∀ i, i < 0 → BitArray_check_bit w i = BitArray_check_bit ⟨0, []⟩ i :=
  ⟨(claim_C8_bin_roundtrip ⟨0, []⟩).1 rfl, (claim_C8_bin_roundtrip ⟨0, []⟩).2⟩

/-- C7: `BitArray_num_set_bits` — computed from the 256-entry table over
full bytes plus a bit-by-bit count of the trailing partial byte — equals
the number of set bit indices below `num_bits`, and together with
`BitArray_num_clear_bits` it sums to `num_bits`. -/
theorem claim_C7_popcount (v : BitArray) (hwf : WF v) :
    BitArray_num_set_bits v =
      (List.range v.num_bits).countP (fun i => BitArray_check_bit v i) ∧
    BitArray_num_set_bits v + BitArray_num_clear_bits v = v.num_bits := by
  obtain ⟨hlen, hb, -⟩ := hwf
  have hfull : v.num_bits / 8 ≤ v.data.length := by
    rw [hlen]; unfold bytesFromBits; omega
  have hmain : BitArray_num_set_bits v =
      (List.range v.num_bits).countP (fun i => BitArray_check_bit v i) := by
    simp only [BitArray_num_set_bits]
    rw [fold_table_count v hb (v.num_bits / 8) hfull 0]
    have hc : v.num_bits / 8 * 8 = 8 * (v.num_bits / 8) := Nat.mul_comm _ _
    rw [hc, fold_tail_count v (8 * (v.num_bits / 8))
      (v.num_bits - 8 * (v.num_bits / 8))]
    have hr : List.range v.num_bits =
        List.range' 0 (8 * (v.num_bits / 8)) ++
        List.range' (8 * (v.num_bits / 8))
          (v.num_bits - 8 * (v.num_bits / 8)) := by
      rw [List.range_eq_range']
      have h := List.range'_append 0 (8 * (v.num_bits / 8))
        (v.num_bits - 8 * (v.num_bits / 8)) 1
      simp only [Nat.one_mul, Nat.zero_add] at h
      rw [h]
      congr 1
      omega
    rw [hr, List.countP_append]
    omega
  refine ⟨hmain, ?_⟩
  have hle : BitArray_num_set_bits v ≤ v.num_bits := by
    rw [hmain]
    calc (List.range v.num_bits).countP (fun i => BitArray_check_bit v i)
        ≤ (List.range v.num_bits).length := List.countP_le_length _
      _ = v.num_bits := List.length_range _
  unfold BitArray_num_clear_bits
  omega

/-- C7 witness: the 12-bit vector `0xCA 0xA0` (six set bits). -/
theorem claim_C7_popcount_witness :
    WF ⟨12, [202, 160]⟩ ∧
    (BitArray_num_set_bits ⟨12, [202, 160]⟩ =
      (List.range 12).countP (fun i => BitArray_check_bit ⟨12, [202, 160]⟩ i) ∧
    BitArray_num_set_bits ⟨12, [202, 160]⟩ +
      BitArray_num_clear_bits ⟨12, [202, 160]⟩ = 12) :=
  ⟨by decide, claim_C7_popcount ⟨12, [202, 160]⟩ (by decide)⟩

/-- C3: `BitArray_next_set_bit` / `BitArray_next_clear_bit` return the
smallest index `i` with `from <= i < size(v)` whose bit matches the target
state (`some i` models returning `true` with `*result = i`), and `none`
(returning `false`) when no such index exists. -/
theorem claim_C3_find_next (v : BitArray) (hwf : WF v) (initial : Nat)
    (hin : initial < v.num_bits) :
    FindNextSpec v initial true (BitArray_next_set_bit v initial) ∧
    FindNextSpec v initial false (BitArray_next_clear_bit v initial) :=
  ⟨find_next_spec v hwf initial hin true,
    find_next_spec v hwf initial hin false⟩

/-- The 777-bit vector whose only set bits are 69 and 420:
bit 69 is byte 8, offset 5 (mask `0x04`); bit 420 is byte 52, offset 4
(mask `0x08`); `ceil(777/8) = 98` bytes. -/
def v777 : BitArray :=
  ⟨777, List.replicate 8 0 ++ [4] ++ List.replicate 43 0 ++ [8] ++
    List.replicate 45 0⟩

/-- C3 witness: the spec's search contract on `v777` — searching from 0
finds 69, from 70 finds 420, and from 421 reports not-found. -/
theorem claim_C3_find_next_witness :
    WF v777 ∧ 0 < v777.num_bits ∧
    FindNextSpec v777 0 true (BitArray_next_set_bit v777 0) ∧
    BitArray_next_set_bit v777 0 = some 69 ∧
    BitArray_next_set_bit v777 70 = some 420 ∧
    BitArray_next_set_bit v777 421 = none :=
  ⟨by decide, by decide,
    (claim_C3_find_next v777 (by decide) 0 (by decide)).1,
    by decide, by decide, by decide⟩

/-- C9: loading the byte stream that `BitArray_save` wrote (with any
trailing garbage, which the C ignores) returns a vector with the same bit
count and identical data bytes; and any stream whose first 18 bytes differ
from the magic header (including streams shorter than 18 bytes) makes
`BitArray_load` fail without producing a vector. -/
theorem claim_C9_save_load (v : BitArray) (hwf : WF v) (extra : List Nat) :
    BitArray_load (BitArray_save v ++ extra) = some v ∧
    ∀ s, ¬ s.take 18 = FILE_HEADER_BYTES → BitArray_load s = none := by
  obtain ⟨hlen, -, hn64⟩ := hwf
  have hhl : FILE_HEADER_BYTES.length = 18 := rfl
  have hlel : (natToLEBytes 8 v.num_bits).length = 8 := natToLEBytes_length 8 _
  constructor
  · unfold BitArray_save
    rw [List.append_assoc, List.append_assoc]
    set rest1 : List Nat := natToLEBytes 8 v.num_bits ++ (v.data ++ extra)
      with hrest1
    simp only [BitArray_load]
    have hslen : (FILE_HEADER_BYTES ++ rest1).length = 18 + rest1.length := by
      rw [List.length_append, hhl]
    rw [if_neg (by rw [hslen]; omega)]
    have htake : (FILE_HEADER_BYTES ++ rest1).take 18 = FILE_HEADER_BYTES := by
      rw [show (18 : Nat) = FILE_HEADER_BYTES.length from rfl, List.take_left]
    have hdrop : (FILE_HEADER_BYTES ++ rest1).drop 18 = rest1 := by
      rw [show (18 : Nat) = FILE_HEADER_BYTES.length from rfl, List.drop_left]
    rw [htake, if_pos (by decide :
      cstrEq (FILE_HEADER_BYTES ++ [0]) (FILE_HEADER_BYTES ++ [0]) = true)]
    rw [hdrop]
    rw [if_neg (by rw [hrest1, List.length_append, hlel]; omega)]
    have htake8 : rest1.take 8 = natToLEBytes 8 v.num_bits := by
      rw [hrest1, List.take_left' hlel]
    have hdrop8 : rest1.drop 8 = v.data ++ extra := by
      rw [hrest1, List.drop_left' hlel]
    have h2564 : (256 : Nat) ^ 8 = 2 ^ 64 := by norm_num
    rw [htake8, hdrop8, le_roundtrip 8 v.num_bits (by omega)]
    rw [if_neg (by rw [List.length_append]; omega)]
    rw [List.take_left' hlen]
  · intro s hs
    simp only [BitArray_load]
    by_cases hl : s.length < 18
    · rw [if_pos hl]
    · rw [if_neg hl]
      have hlen18 : (s.take 18).length = FILE_HEADER_BYTES.length := by
        rw [List.length_take, hhl]; omega
      rw [if_neg (show
        ¬ cstrEq (s.take 18 ++ [0]) (FILE_HEADER_BYTES ++ [0]) = true from
        fun hc => hs ((cstrEq_iff FILE_HEADER_BYTES (s.take 18) hlen18
          (by decide)).mp hc))]

/-- C9 witness: a 12-bit vector saved and reloaded byte-for-byte; plus the
failure branch follows for e.g. an 18-byte stream of zeros by the second
conjunct. -/
theorem claim_C9_save_load_witness :
    WF ⟨12, [171, 192]⟩ ∧
    (BitArray_load (BitArray_save ⟨12, [171, 192]⟩ ++ []) =
      some ⟨12, [171, 192]⟩ ∧
    ∀ s, ¬ s.take 18 = FILE_HEADER_BYTES → BitArray_load s = none) :=
  ⟨by decide, claim_C9_save_load ⟨12, [171, 192]⟩ (by decide) []⟩

/-- C5: when `size(v)` is not a multiple of 4, `BitArray_to_hex_str`
renders the final partial nibble left-padded with zero bits: the produced
string has one hex digit per nibble, and its last character is the hex
digit of the value of the remaining `size % 4` bits read MSB-first (so a
trailing `111` prints as `7`, never `E`). -/
theorem claim_C5_hex_left_pad (v : BitArray) (hwf : WF v)
    (hmod : ¬ v.num_bits % 4 = 0) (buf : List Char)
    (hbuf : buf.length = BitArray_min_hex_str_len v) :
    (cString (BitArray_to_hex_str v buf)).length = (v.num_bits + 3) / 4 ∧
    (cString (BitArray_to_hex_str v buf)).getLast? =
      some (hexDigitChar (lastNibbleSpec v)) := by
  obtain ⟨hlen, hb256, -⟩ := hwf
  have hn0 : ¬ v.num_bits = 0 := by omega
  have hnn1 : 1 ≤ (v.num_bits + 3) / 4 := by omega
  have hml : BitArray_min_hex_str_len v = (v.num_bits + 3) / 4 + 1 := rfl
  have hbuflen : buf.length = (v.num_bits + 3) / 4 + 1 := by rw [hbuf, hml]
  have hbyteidx : ((v.num_bits + 3) / 4 - 1) / 2 < v.data.length := by
    rw [hlen]; unfold bytesFromBits; omega
  have hBmem : v.data.getD (((v.num_bits + 3) / 4 - 1) / 2) 0 ∈ v.data := by
    rw [List.getD_eq_getElem?_getD, List.getElem?_eq_getElem hbyteidx]
    exact List.getElem_mem hbyteidx
  have hBlt : v.data.getD (((v.num_bits + 3) / 4 - 1) / 2) 0 < 256 :=
    hb256 _ hBmem
  simp only [BitArray_to_hex_str]
  rw [if_neg hn0, hml, Nat.add_sub_cancel, if_pos hmod]
  rcases Nat.mod_two_eq_zero_or_one ((v.num_bits + 3) / 4) with hpar | hpar
  · -- even nibble index: the lower nibble of the byte
    have hand : (v.num_bits + 3) / 4 &&& 1 = 0 := by
      rw [Nat.and_one_is_mod, hpar]
    rw [hand, if_neg (by omega : ¬ (0 : Nat) = 1), Nat.shiftRight_zero]
    have hln : loopNibble v ((v.num_bits + 3) / 4) =
        v.data.getD (((v.num_bits + 3) / 4 - 1) / 2) 0 &&& 15 := by
      unfold loopNibble
      rw [hand, show (15 : Nat) <<< (0 * 4) = 15 from rfl]
    rw [hln]
    obtain ⟨heq, hlt⟩ := hex_last_even _ hBlt (v.num_bits % 4)
      (by omega) (by omega)
    have hspec : lastNibbleSpec v = (List.range (v.num_bits % 4)).foldl
        (fun acc k => 2 * acc +
          (if Nat.testBit (v.data.getD (((v.num_bits + 3) / 4 - 1) / 2) 0)
            (3 - k) then 1 else 0)) 0 := by
      simp only [lastNibbleSpec]
      rw [show v.num_bits - 4 * ((v.num_bits + 3) / 4 - 1) = v.num_bits % 4
        from by omega]
      apply List.foldl_ext
      intro acc k hk
      have hk4 : k < v.num_bits % 4 := List.mem_range.mp hk
      have hidx : (4 * ((v.num_bits + 3) / 4 - 1) + k) / 8 =
          ((v.num_bits + 3) / 4 - 1) / 2 := by omega
      have hoff : 7 - (4 * ((v.num_bits + 3) / 4 - 1) + k) % 8 = 3 - k := by
        omega
      rw [check_eq_testBit, hidx, hoff]
    have hval : (v.data.getD (((v.num_bits + 3) / 4 - 1) / 2) 0 &&& 15) >>>
        (4 - v.num_bits % 4) = lastNibbleSpec v := heq.trans hspec.symm
    rw [hval]
    exact hex_out_string v buf _ (lastNibbleSpec v) hnn1 hbuflen (hval ▸ hlt)
  · -- odd nibble index: the upper nibble of the byte
    have hand : (v.num_bits + 3) / 4 &&& 1 = 1 := by
      rw [Nat.and_one_is_mod, hpar]
    rw [hand, if_pos rfl]
    have hln : loopNibble v ((v.num_bits + 3) / 4) =
        v.data.getD (((v.num_bits + 3) / 4 - 1) / 2) 0 &&& 240 := by
      unfold loopNibble
      rw [hand, show (15 : Nat) <<< (1 * 4) = 240 from rfl]
    rw [hln]
    obtain ⟨heq, hlt⟩ := hex_last_odd _ hBlt (v.num_bits % 4)
      (by omega) (by omega)
    have hspec : lastNibbleSpec v = (List.range (v.num_bits % 4)).foldl
        (fun acc k => 2 * acc +
          (if Nat.testBit (v.data.getD (((v.num_bits + 3) / 4 - 1) / 2) 0)
            (7 - k) then 1 else 0)) 0 := by
      simp only [lastNibbleSpec]
      rw [show v.num_bits - 4 * ((v.num_bits + 3) / 4 - 1) = v.num_bits % 4
        from by omega]
      apply List.foldl_ext
      intro acc k hk
      have hk4 : k < v.num_bits % 4 := List.mem_range.mp hk
      have hidx : (4 * ((v.num_bits + 3) / 4 - 1) + k) / 8 =
          ((v.num_bits + 3) / 4 - 1) / 2 := by omega
      have hoff : 7 - (4 * ((v.num_bits + 3) / 4 - 1) + k) % 8 = 7 - k := by
        omega
      rw [check_eq_testBit, hidx, hoff]
    have hval : ((v.data.getD (((v.num_bits + 3) / 4 - 1) / 2) 0 &&& 240) >>>
        (4 - v.num_bits % 4)) >>> 4 = lastNibbleSpec v := heq.trans hspec.symm
    rw [hval]
    exact hex_out_string v buf _ (lastNibbleSpec v) hnn1 hbuflen (hval ▸ hlt)

/-- C5 witness: the 7-bit vector built from `"1010111"` (buffer `0xAE`)
renders as `"A7"` — the trailing 3-bit group `111` left-pads to `0111`. -/
theorem claim_C5_hex_left_pad_witness :
    WF ⟨7, [174]⟩ ∧ ¬ (7 : Nat) % 4 = 0 ∧
    (List.replicate 3 'x').length = BitArray_min_hex_str_len ⟨7, [174]⟩ ∧
    ((cString (BitArray_to_hex_str ⟨7, [174]⟩ (List.replicate 3 'x'))).length
        = (7 + 3) / 4 ∧
      (cString (BitArray_to_hex_str ⟨7, [174]⟩
        (List.replicate 3 'x'))).getLast? =
        some (hexDigitChar (lastNibbleSpec ⟨7, [174]⟩))) ∧
    BitArray_init_from_bin ['1', '0', '1', '0', '1', '1', '1'] =
      some ⟨7, [174]⟩ ∧
    cString (BitArray_to_hex_str ⟨7, [174]⟩ (List.replicate 3 'x')) =
      ['A', '7'] :=
  ⟨by decide, by decide, by decide,
    claim_C5_hex_left_pad ⟨7, [174]⟩ (by decide) (by decide) _ (by decide),
    by decide, by decide⟩

end BitArrayC
